import Mathlib

/-!
# Document symbols of nixd

A shallow embedding of `nixd/lib/Controller/DocumentSymbol.cpp`: the helpers
`getLambdaName`, `getLambdaSelectionRage`, `getAttrRange`, `richVar`, the
recursive traversal `collect` and the action of `Controller::onDocumentSymbol`,
followed by theorems about them.

Conventions of the embedding.
* A `const Node *` that may be null is an `Option Node`.
* `collect` appends to a vector passed by reference; here the vector is passed
  in and the extended vector is returned. The parameters that stay the same
  through the recursion (translation, oracle, source text) come first, the node
  and the output last.
* A failed `assert` and the dereference of a null pointer both end the run;
  functions that can reach one return `Option`, with `none` for that outcome.
* Declarations the file includes but does not contain (`Convert.h`, the `nixf`
  node classes, the LSP protocol types) are modelled by the smallest data that
  the accessors used in the file read.
-/

namespace nixd

/-! ## Positions and ranges -/

/-- Modelled from the spec: `nixf::LexerCursor` is declared outside this file;
the spec describes node ranges as byte offsets into the source text. -/
structure LexerCursor where
  offset : Nat
  deriving DecidableEq, Repr

/-- Modelled from the spec: `nixf::LexerCursorRange`, the pair of cursors
returned by `range()`, with the accessors `lCur()` and `rCur()`. -/
structure LexerCursorRange where
  lCur : LexerCursor
  rCur : LexerCursor
  deriving DecidableEq, Repr

/-- The LSP position: zero based line and column (`lspserver::Position`). -/
structure Position where
  line : Nat
  character : Nat
  deriving DecidableEq, Repr

/-- The LSP range (`lspserver::Range`); the field `stop` is the member `end`
of the protocol, renamed because `end` is reserved. -/
structure Range where
  start : Position
  stop : Position
  deriving DecidableEq, Repr

/-- Lexicographic order on positions: earlier line, or same line and a column
that is not later. -/
def Position.le (p q : Position) : Prop :=
  p.line < q.line ∨ (p.line = q.line ∧ p.character ≤ q.character)

instance : LE Position := ⟨Position.le⟩

instance (p q : Position) : Decidable (p ≤ q) :=
  inferInstanceAs (Decidable (p.line < q.line ∨ (p.line = q.line ∧ p.character ≤ q.character)))

/-- Containment of ranges: `inner` starts no earlier and stops no later. -/
def Range.contains (outer inner : Range) : Prop :=
  outer.start ≤ inner.start ∧ inner.stop ≤ outer.stop

instance (a b : Range) : Decidable (Range.contains a b) :=
  inferInstanceAs (Decidable (_ ∧ _))

/-- The type of `toLSPPosition` of `Convert.h`, which this file calls but does
not define: source text and cursor to LSP position. It is a parameter of every
definition below that translates a cursor. -/
abbrev Translator := String → LexerCursor → Position

/-- Modelled from the spec: `toLSPRange` of `Convert.h` is not in this file;
the range translator maps the pair of offsets to the pair of their positions. -/
def toLSPRange (toLSPPosition : Translator) (Src : String) (R : LexerCursorRange) : Range :=
  { start := toLSPPosition Src R.lCur, stop := toLSPPosition Src R.rCur }

/-! ## Syntax tree -/

/-- The identifier node: `name()` and `range()`. -/
structure Identifier where
  range : LexerCursorRange
  name : String
  deriving DecidableEq, Repr

/-- The destructuring pattern of a lambda parameter; only `range()` is read. -/
structure Formals where
  range : LexerCursorRange
  deriving DecidableEq, Repr

/-- The lambda parameter: `id()` and `formals()` are pointers that may be null. -/
structure LambdaArg where
  id : Option Identifier
  formals : Option Formals
  deriving DecidableEq, Repr

/-- The variable reference node: `range()` and `id()`. -/
structure ExprVar where
  range : LexerCursorRange
  id : Identifier
  deriving DecidableEq, Repr

mutual
/-- The syntax tree, one constructor per case of the `switch` in `collect`.
`Other` stands for every node whose `kind()` is none of the eight listed
cases; it carries what the `default` branch reads, `children()`. The floating
literal keeps `std::to_string(value())` as text. -/
inductive Node where
  | ExprString (range : LexerCursorRange) (isLiteral : Bool) (literal : String)
  | ExprInt (range : LexerCursorRange) (value : Int)
  | ExprFloat (range : LexerCursorRange) (valueText : String)
  | AttrName (range : LexerCursorRange) (isStatic : Bool) (staticName : String)
  | ExprVar (Var : ExprVar)
  | ExprLambda (range : LexerCursorRange) (arg : Option LambdaArg) (body : Option Node)
  | ExprList (range : LexerCursorRange) (children : List (Option Node))
  | ExprAttrs (range : LexerCursorRange) (sema : SemaAttrs)
  | Other (range : LexerCursorRange) (children : List (Option Node))
/-- An attribute: `key()` is a node, `value()` a pointer that may be null. -/
inductive Attribute where
  | mk (key : Node) (value : Option Node)
/-- Modelled from the spec: `SemaAttrs` is declared outside this file. The spec
gives the static attributes as name and attribute pairs with declaration order
preserved, and the dynamic attributes as an ordered sequence; both are lists in
the order in which the two `for` loops of `collect` visit them. -/
inductive SemaAttrs where
  | mk (staticAttrs : List (String × Attribute)) (dynamicAttrs : List Attribute)
end

/-- The accessor `range()` of a node. -/
def Node.range : Node → LexerCursorRange
  | .ExprString r _ _ => r
  | .ExprInt r _ => r
  | .ExprFloat r _ => r
  | .AttrName r _ _ => r
  | .ExprVar v => v.range
  | .ExprLambda r _ _ => r
  | .ExprList r _ => r
  | .ExprAttrs r _ => r
  | .Other r _ => r

def Node.lCur (n : Node) : LexerCursor := n.range.lCur
def Node.rCur (n : Node) : LexerCursor := n.range.rCur

def Attribute.key : Attribute → Node
  | .mk k _ => k

def Attribute.value : Attribute → Option Node
  | .mk _ v => v

def SemaAttrs.staticAttrs : SemaAttrs → List (String × Attribute)
  | .mk s _ => s

def SemaAttrs.dynamicAttrs : SemaAttrs → List Attribute
  | .mk _ d => d

/-! ## Outline entries -/

/-- The `SymbolKind` enumeration of the language server protocol. -/
inductive SymbolKind where
  | File | Module | Namespace | Package | Class | Method | Property | Field
  | Constructor | Enum | Interface | Function | Variable | Constant | String
  | Number | Boolean | Array | Object | Key | Null | EnumMember | Struct
  | Event | Operator | TypeParameter
  deriving DecidableEq, Repr

/-- The outline entry (`lspserver::DocumentSymbol`). -/
structure DocumentSymbol where
  name : String
  detail : String
  kind : SymbolKind
  deprecated : Bool
  range : Range
  selectionRange : Range
  children : List DocumentSymbol

/-! ## Variable lookup -/

/-- Modelled from the spec: the enumeration `LookupResultKind` is declared
outside this file. The source names `Defined` and `FromWith` and treats every
other value alike; the spec calls that remaining outcome Unresolved. -/
inductive LookupResultKind where
  | Defined | FromWith | Unresolved
  deriving DecidableEq, Repr

/-- The definition a lookup points to; only `isBuiltin()` is read. -/
structure Definition where
  isBuiltin : Bool
  deriving DecidableEq, Repr

/-- The answer of `VariableLookupAnalysis::query`: the member `Kind` and the
pointer `Def`, which may be null. -/
structure LookupResult where
  Kind : LookupResultKind
  Def : Option Definition
  deriving DecidableEq, Repr

/-- The semantic oracle; only `query` is used. -/
structure VariableLookupAnalysis where
  query : ExprVar → LookupResult

/-! ## Helpers of the traversal -/

def getLambdaName (arg : Option LambdaArg) : String :=
  match arg with
  | none => "(anonymous lambda)"
  | some a =>
    match a.id with
    | none => "(anonymous lambda)"
    | some i => i.name

/-- The selection range of a lambda. With a parameter that has neither an
identifier nor formals the source asserts (and then dereferences the null
`formals()`): the result is `none`. -/
def getLambdaSelectionRage (toLSPPosition : Translator) (Src : String)
    (range : LexerCursorRange) (arg : Option LambdaArg) : Option Range :=
  match arg with
  | none => some (toLSPRange toLSPPosition Src range)
  | some a =>
    match a.id with
    | none =>
      match a.formals with
      | none => none
      | some f => some (toLSPRange toLSPPosition Src f.range)
    | some i => some (toLSPRange toLSPPosition Src i.range)

def getAttrRange (toLSPPosition : Translator) (Src : String) (Attr : Attribute) : Range :=
  let LCur := toLSPPosition Src Attr.key.lCur
  match Attr.value with
  | some v => { start := LCur, stop := toLSPPosition Src v.rCur }
  | none => { start := LCur, stop := toLSPPosition Src Attr.key.rCur }

/-- The last statement of `richVar`,
`if (Result.Def->isBuiltin()) Sym.kind = SymbolKind::Event;`. The pointer
`Result.Def` is dereferenced without a test; a null pointer gives `none`. -/
def richVar.markBuiltin (Result : LookupResult) (Sym : DocumentSymbol) : Option DocumentSymbol :=
  match Result.Def with
  | none => none
  | some d => if d.isBuiltin then some { Sym with kind := SymbolKind.Event } else some Sym

/-- Make the entry of a variable rich. The entry is passed in and the modified
entry returned. The two branches that set the kind from the lookup fall through
to the last statement; the other branches return. -/
def richVar (Var : ExprVar) (Sym : DocumentSymbol) (VLA : VariableLookupAnalysis) :
    Option DocumentSymbol :=
  if Var.id.name = "true" ∨ Var.id.name = "false" then
    some { Sym with kind := SymbolKind.Boolean, detail := "builtin boolean" }
  else if Var.id.name = "null" then
    some { Sym with kind := SymbolKind.Null, detail := "null" }
  else
    let Result := VLA.query Var
    if Result.Kind = LookupResultKind.Defined then
      richVar.markBuiltin Result { Sym with kind := SymbolKind.Constant }
    else if Result.Kind = LookupResultKind.FromWith then
      richVar.markBuiltin Result { Sym with kind := SymbolKind.Variable }
    else
      some { Sym with deprecated := true }

/-! ## The traversal -/

mutual
/-- Collect document symbols on the tree: the entries for `AST` are appended to
`Symbols`. -/
def collect (toLSPPosition : Translator) (VLA : VariableLookupAnalysis) (Src : String)
    (AST : Option Node) (Symbols : List DocumentSymbol) : Option (List DocumentSymbol) :=
  match AST with
  | none => some Symbols
  | some n => collectNode toLSPPosition VLA Src n Symbols
/-- The `switch` of `collect` on a node that is not null. -/
def collectNode (toLSPPosition : Translator) (VLA : VariableLookupAnalysis) (Src : String)
    (AST : Node) (Symbols : List DocumentSymbol) : Option (List DocumentSymbol) :=
  match AST with
  | .ExprString range isLiteral literal =>
    some (Symbols ++ [{
      name := if isLiteral then literal else "(dynamic string)"
      detail := "string"
      kind := SymbolKind.String
      deprecated := false
      range := toLSPRange toLSPPosition Src range
      selectionRange := toLSPRange toLSPPosition Src range
      children := [] }])
  | .ExprInt range value =>
    some (Symbols ++ [{
      name := toString value
      detail := "integer"
      kind := SymbolKind.Number
      deprecated := false
      range := toLSPRange toLSPPosition Src range
      selectionRange := toLSPRange toLSPPosition Src range
      children := [] }])
  | .ExprFloat range valueText =>
    some (Symbols ++ [{
      name := valueText
      detail := "float"
      kind := SymbolKind.Number
      deprecated := false
      range := toLSPRange toLSPPosition Src range
      selectionRange := toLSPRange toLSPPosition Src range
      children := [] }])
  | .AttrName range isStatic staticName =>
    some (Symbols ++ [{
      name := if isStatic then staticName else "(dynamic attribute name)"
      detail := "attribute name"
      kind := SymbolKind.Property
      deprecated := false
      range := toLSPRange toLSPPosition Src range
      selectionRange := toLSPRange toLSPPosition Src range
      children := [] }])
  | .ExprVar Var =>
    match richVar Var {
        name := Var.id.name
        detail := "identifier"
        kind := SymbolKind.Variable
        deprecated := false
        range := toLSPRange toLSPPosition Src Var.range
        selectionRange := toLSPRange toLSPPosition Src Var.range
        children := [] } VLA with
    | none => none
    | some Sym => some (Symbols ++ [Sym])
  | .ExprLambda range arg body =>
    match collect toLSPPosition VLA Src body [] with
    | none => none
    | some Children =>
      match getLambdaSelectionRage toLSPPosition Src range arg with
      | none => none
      | some sel =>
        some (Symbols ++ [{
          name := getLambdaName arg
          detail := "lambda"
          kind := SymbolKind.Function
          deprecated := false
          range := toLSPRange toLSPPosition Src range
          selectionRange := sel
          children := Children }])
  | .ExprList range children =>
    match collectChildren toLSPPosition VLA Src children [] with
    | none => none
    | some Children =>
      some (Symbols ++ [{
        name := "\x7banonymous\x7d"
        detail := "list"
        kind := SymbolKind.Array
        deprecated := false
        range := toLSPRange toLSPPosition Src range
        selectionRange := toLSPRange toLSPPosition Src range
        children := Children }])
  | .ExprAttrs _ (.mk staticAttrs dynamicAttrs) =>
    match collectStatic toLSPPosition VLA Src staticAttrs Symbols with
    | none => none
    | some Symbols1 => collectDynamic toLSPPosition VLA Src dynamicAttrs Symbols1
  | .Other _ children => collectChildren toLSPPosition VLA Src children Symbols
/-- The loop `for (const Node *Ch : AST->children()) collect(Ch, ...)`. -/
def collectChildren (toLSPPosition : Translator) (VLA : VariableLookupAnalysis) (Src : String)
    (children : List (Option Node)) (Symbols : List DocumentSymbol) :
    Option (List DocumentSymbol) :=
  match children with
  | [] => some Symbols
  | Ch :: rest =>
    match collect toLSPPosition VLA Src Ch Symbols with
    | none => none
    | some Symbols1 => collectChildren toLSPPosition VLA Src rest Symbols1
/-- The loop over `SA.staticAttrs()`. -/
def collectStatic (toLSPPosition : Translator) (VLA : VariableLookupAnalysis) (Src : String)
    (attrs : List (String × Attribute)) (Symbols : List DocumentSymbol) :
    Option (List DocumentSymbol) :=
  match attrs with
  | [] => some Symbols
  | (_, .mk _ none) :: rest => collectStatic toLSPPosition VLA Src rest Symbols
  | (Name, .mk key (some v)) :: rest =>
    match collect toLSPPosition VLA Src (some v) [] with
    | none => none
    | some Children =>
      collectStatic toLSPPosition VLA Src rest (Symbols ++ [{
        name := Name
        detail := "attribute"
        kind := SymbolKind.Field
        deprecated := false
        range := getAttrRange toLSPPosition Src (.mk key (some v))
        selectionRange := toLSPRange toLSPPosition Src key.range
        children := Children }])
/-- The loop over `SA.dynamicAttrs()`. -/
def collectDynamic (toLSPPosition : Translator) (VLA : VariableLookupAnalysis) (Src : String)
    (attrs : List Attribute) (Symbols : List DocumentSymbol) :
    Option (List DocumentSymbol) :=
  match attrs with
  | [] => some Symbols
  | (.mk key value) :: rest =>
    match collect toLSPPosition VLA Src value [] with
    | none => none
    | some Children =>
      collectDynamic toLSPPosition VLA Src rest (Symbols ++ [{
        name := "$\x7bdynamic attribute\x7d"
        detail := "attribute"
        kind := SymbolKind.Field
        deprecated := false
        range := getAttrRange toLSPPosition Src (.mk key value)
        selectionRange := toLSPRange toLSPPosition Src key.range
        children := Children }])
end

/-! ## The request -/

/-- Modelled from the spec: the failures a request is answered with. The source
obtains them from `getTU`, `getAST` and the macro `CheckDefault`, none of which
is in this file; the spec names DocumentNotFound, NoParseAvailable and
InternalError with a message. -/
inductive Failure where
  | DocumentNotFound
  | NoParseAvailable
  | InternalError (message : String)
  deriving DecidableEq, Repr

/-- Modelled from the spec: the translation unit `TU`, declared outside this
file, of which the request reads `src()` and `variableLookup()`. -/
structure NixTU where
  src : String
  variableLookup : VariableLookupAnalysis

/-- Modelled from the spec: the two lookups of the controller that the request
uses, both declared outside this file. `getTU` resolves a document identifier
to a translation unit or fails; `getAST` resolves a translation unit to the
root of its parsed tree or fails. -/
structure Controller where
  getTU : String → Except Failure NixTU
  getAST : NixTU → Except Failure Node

/-- Modelled from the spec: the macro `CheckDefault` of `CheckReturn.h`, which
is not in this file. The first failing stage ends the request and its failure
is the reply; otherwise the request goes on with the value of the stage. The
reply is `none` when the run ends without one. -/
def CheckDefault {α β : Type} (x : Except Failure α) (rest : α → Option (Except Failure β)) :
    Option (Except Failure β) :=
  match x with
  | .error e => some (.error e)
  | .ok a => rest a

/-- The action of `Controller::onDocumentSymbol`: the value handed to `Reply`.
Posting the action to the pool is not modelled. -/
def Controller.onDocumentSymbol (C : Controller) (toLSPPosition : Translator) (File : String) :
    Option (Except Failure (List DocumentSymbol)) :=
  CheckDefault (C.getTU File) fun TU =>
    CheckDefault (C.getAST TU) fun AST =>
      match collect toLSPPosition TU.variableLookup TU.src (some AST) [] with
      | none => none
      | some Symbols => some (.ok Symbols)

/-! ## Vocabulary of the statements -/

/-- Concatenation, in order, of the forests a sequence of runs returned; there
is no result as soon as one of the runs has none. -/
def concatResults : List (Option (List DocumentSymbol)) → Option (List DocumentSymbol)
  | [] => some []
  | none :: _ => none
  | some part :: rest => (concatResults rest).map (part ++ ·)

/-- Every entry of a forest, at any depth, parents before their children. -/
def allEntries : List DocumentSymbol → List DocumentSymbol
  | [] => []
  | (DocumentSymbol.mk name detail kind deprecated range selectionRange children) :: rest =>
    (DocumentSymbol.mk name detail kind deprecated range selectionRange children)
      :: (allEntries children ++ allEntries rest)

/-- The cursor range `inner` lies inside `outer`, by offsets. -/
def LexerCursorRange.encloses (outer inner : LexerCursorRange) : Bool :=
  decide (outer.lCur.offset ≤ inner.lCur.offset) && decide (inner.rCur.offset ≤ outer.rCur.offset)

/-- The part of a lambda parameter that the selection range is taken from lies
inside the lambda: the identifier when there is one, else the formals. -/
def argNested (range : LexerCursorRange) (arg : Option LambdaArg) : Bool :=
  match arg with
  | none => true
  | some a =>
    match a.id with
    | some i => range.encloses i.range
    | none =>
      match a.formals with
      | some f => range.encloses f.range
      | none => true

mutual
/-- Nesting of the ranges that `collect` combines into one entry, checked on
every node of the tree: the parameter of a lambda lies inside the lambda, and
the key of an attribute ends no later than its value. This is how the ranges of
a tree parsed from a text lie; the node classes themselves do not enforce it. -/
def rangesNested (AST : Option Node) : Bool :=
  match AST with
  | none => true
  | some n => rangesNestedNode n
def rangesNestedNode (AST : Node) : Bool :=
  match AST with
  | .ExprString _ _ _ => true
  | .ExprInt _ _ => true
  | .ExprFloat _ _ => true
  | .AttrName _ _ _ => true
  | .ExprVar _ => true
  | .ExprLambda range arg body => argNested range arg && rangesNested body
  | .ExprList _ children => rangesNestedChildren children
  | .ExprAttrs _ (.mk staticAttrs dynamicAttrs) =>
    rangesNestedStatic staticAttrs && rangesNestedDynamic dynamicAttrs
  | .Other _ children => rangesNestedChildren children
def rangesNestedChildren (children : List (Option Node)) : Bool :=
  match children with
  | [] => true
  | Ch :: rest => rangesNested Ch && rangesNestedChildren rest
def rangesNestedStatic (attrs : List (String × Attribute)) : Bool :=
  match attrs with
  | [] => true
  | (_, .mk _ none) :: rest => rangesNestedStatic rest
  | (_, .mk key (some v)) :: rest =>
    decide (key.rCur.offset ≤ v.rCur.offset) && rangesNested (some v) && rangesNestedStatic rest
def rangesNestedDynamic (attrs : List Attribute) : Bool :=
  match attrs with
  | [] => true
  | (.mk _ none) :: rest => rangesNestedDynamic rest
  | (.mk key (some v)) :: rest =>
    decide (key.rCur.offset ≤ v.rCur.offset) && rangesNested (some v) && rangesNestedDynamic rest
end

/-- The attribute has a value. -/
def Attribute.hasValue (Attr : Attribute) : Bool := Attr.value.isSome

/-- The entry both attribute loops of `collect` build for an attribute, given
its name and the forest collected for its value. -/
def fieldEntry (toLSPPosition : Translator) (Src : String) (Name : String) (Attr : Attribute)
    (Children : List DocumentSymbol) : DocumentSymbol :=
  { name := Name
    detail := "attribute"
    kind := SymbolKind.Field
    deprecated := false
    range := getAttrRange toLSPPosition Src Attr
    selectionRange := toLSPRange toLSPPosition Src Attr.key.range
    children := Children }

mutual
/-- Nesting depth of an entry: one more than the depth of its children. -/
def entryDepth : DocumentSymbol → Nat
  | DocumentSymbol.mk _ _ _ _ _ _ children => forestDepth children + 1
/-- Nesting depth of a forest: zero for the empty forest, else the largest
depth of its entries. -/
def forestDepth : List DocumentSymbol → Nat
  | [] => 0
  | e :: rest => max (entryDepth e) (forestDepth rest)
end

mutual
/-- Nesting depth of a tree: zero for a null pointer, one for a node without
nodes below it; the body of a lambda, the elements of a list, the values of the
attributes of an attribute set and the children of any other node are one level
below the node. -/
def treeDepth (AST : Option Node) : Nat :=
  match AST with
  | none => 0
  | some n => treeDepthNode n
def treeDepthNode (AST : Node) : Nat :=
  match AST with
  | .ExprString _ _ _ => 1
  | .ExprInt _ _ => 1
  | .ExprFloat _ _ => 1
  | .AttrName _ _ _ => 1
  | .ExprVar _ => 1
  | .ExprLambda _ _ body => treeDepth body + 1
  | .ExprList _ children => treeDepthChildren children + 1
  | .ExprAttrs _ (.mk staticAttrs dynamicAttrs) =>
    max (treeDepthStatic staticAttrs) (treeDepthDynamic dynamicAttrs) + 1
  | .Other _ children => treeDepthChildren children + 1
def treeDepthChildren (children : List (Option Node)) : Nat :=
  match children with
  | [] => 0
  | Ch :: rest => max (treeDepth Ch) (treeDepthChildren rest)
def treeDepthStatic (attrs : List (String × Attribute)) : Nat :=
  match attrs with
  | [] => 0
  | (_, .mk _ value) :: rest => max (treeDepth value) (treeDepthStatic rest)
def treeDepthDynamic (attrs : List Attribute) : Nat :=
  match attrs with
  | [] => 0
  | (.mk _ value) :: rest => max (treeDepth value) (treeDepthDynamic rest)
end

/-- The lookup for the variable cannot end the run: `richVar` returns before
the lookup, or the answer is Unresolved, or a definition is attached. -/
def varSafe (VLA : VariableLookupAnalysis) (Var : ExprVar) : Bool :=
  decide (Var.id.name = "true") || decide (Var.id.name = "false") ||
    decide (Var.id.name = "null") ||
    decide ((VLA.query Var).Kind = LookupResultKind.Unresolved) || (VLA.query Var).Def.isSome

/-- The assertion of `getLambdaSelectionRage` holds: there is no parameter, or
the parameter has an identifier or formals. -/
def argSafe (arg : Option LambdaArg) : Bool :=
  match arg with
  | none => true
  | some a => a.id.isSome || a.formals.isSome

mutual
/-- On every lambda and every variable that `collect` reaches in the tree, the
assertion holds and the lookup is safe. -/
def runsThrough (VLA : VariableLookupAnalysis) (AST : Option Node) : Bool :=
  match AST with
  | none => true
  | some n => runsThroughNode VLA n
def runsThroughNode (VLA : VariableLookupAnalysis) (AST : Node) : Bool :=
  match AST with
  | .ExprString _ _ _ => true
  | .ExprInt _ _ => true
  | .ExprFloat _ _ => true
  | .AttrName _ _ _ => true
  | .ExprVar Var => varSafe VLA Var
  | .ExprLambda _ arg body => runsThrough VLA body && argSafe arg
  | .ExprList _ children => runsThroughChildren VLA children
  | .ExprAttrs _ (.mk staticAttrs dynamicAttrs) =>
    runsThroughStatic VLA staticAttrs && runsThroughDynamic VLA dynamicAttrs
  | .Other _ children => runsThroughChildren VLA children
def runsThroughChildren (VLA : VariableLookupAnalysis) (children : List (Option Node)) : Bool :=
  match children with
  | [] => true
  | Ch :: rest => runsThrough VLA Ch && runsThroughChildren VLA rest
def runsThroughStatic (VLA : VariableLookupAnalysis) (attrs : List (String × Attribute)) : Bool :=
  match attrs with
  | [] => true
  | (_, .mk _ none) :: rest => runsThroughStatic VLA rest
  | (_, .mk _ (some v)) :: rest => runsThrough VLA (some v) && runsThroughStatic VLA rest
def runsThroughDynamic (VLA : VariableLookupAnalysis) (attrs : List Attribute) : Bool :=
  match attrs with
  | [] => true
  | (.mk _ value) :: rest => runsThrough VLA value && runsThroughDynamic VLA rest
end

mutual
/-- The variable references that `collect` reaches in the tree, in the order of
the traversal. -/
def reachedVars (AST : Option Node) : List ExprVar :=
  match AST with
  | none => []
  | some n => reachedVarsNode n
def reachedVarsNode (AST : Node) : List ExprVar :=
  match AST with
  | .ExprString _ _ _ => []
  | .ExprInt _ _ => []
  | .ExprFloat _ _ => []
  | .AttrName _ _ _ => []
  | .ExprVar Var => [Var]
  | .ExprLambda _ _ body => reachedVars body
  | .ExprList _ children => reachedVarsChildren children
  | .ExprAttrs _ (.mk staticAttrs dynamicAttrs) =>
    reachedVarsStatic staticAttrs ++ reachedVarsDynamic dynamicAttrs
  | .Other _ children => reachedVarsChildren children
def reachedVarsChildren (children : List (Option Node)) : List ExprVar :=
  match children with
  | [] => []
  | Ch :: rest => reachedVars Ch ++ reachedVarsChildren rest
def reachedVarsStatic (attrs : List (String × Attribute)) : List ExprVar :=
  match attrs with
  | [] => []
  | (_, .mk _ none) :: rest => reachedVarsStatic rest
  | (_, .mk _ (some v)) :: rest => reachedVars (some v) ++ reachedVarsStatic rest
def reachedVarsDynamic (attrs : List Attribute) : List ExprVar :=
  match attrs with
  | [] => []
  | (.mk _ value) :: rest => reachedVars value ++ reachedVarsDynamic rest
end

/-! ## Concrete inputs -/

namespace Example

/-- A translator for text on one line: line zero, column the offset. -/
def columns : Translator := fun _ c => { line := 0, character := c.offset }

/-- The cursor range from offset `a` to offset `b`. -/
def span (a b : Nat) : LexerCursorRange := { lCur := { offset := a }, rCur := { offset := b } }

/-- An oracle that resolves nothing. -/
def unresolved : VariableLookupAnalysis :=
  { query := fun _ => { Kind := LookupResultKind.Unresolved, Def := none } }

/-- An oracle that reports every variable as bound by `with`, the definition
attached to the answer being of builtin origin. -/
def fromWithBuiltin : VariableLookupAnalysis :=
  { query := fun _ => { Kind := LookupResultKind.FromWith, Def := some { isBuiltin := true } } }

/-- An oracle that reports every variable as defined by a binding that is not
builtin. -/
def definedPlain : VariableLookupAnalysis :=
  { query := fun _ => { Kind := LookupResultKind.Defined, Def := some { isBuiltin := false } } }

/-- The variable `x` at offsets 3 to 4. -/
def varX : ExprVar := { range := span 3 4, id := { range := span 3 4, name := "x" } }

/-- The variable `true` at offsets 0 to 4. -/
def varTrue : ExprVar := { range := span 0 4, id := { range := span 0 4, name := "true" } }

/-- The tree of `x: x + 1`: a lambda over a binary operation. -/
def lambdaXPlusOne : Node :=
  .ExprLambda (span 0 8) (some { id := some { range := span 0 1, name := "x" }, formals := none })
    (some (.Other (span 3 8) [some (.ExprVar varX), some (.ExprInt (span 7 8) 1)]))

/-- The entry expected for `lambdaXPlusOne` when nothing resolves: the function
`x`, selected at its parameter, with the entries of `x` and `1` as children. -/
def lambdaXPlusOneEntry : DocumentSymbol :=
  { name := "x", detail := "lambda", kind := SymbolKind.Function, deprecated := false,
    range := { start := ⟨0, 0⟩, stop := ⟨0, 8⟩ },
    selectionRange := { start := ⟨0, 0⟩, stop := ⟨0, 1⟩ },
    children :=
      [{ name := "x", detail := "identifier", kind := SymbolKind.Variable, deprecated := true,
         range := { start := ⟨0, 3⟩, stop := ⟨0, 4⟩ },
         selectionRange := { start := ⟨0, 3⟩, stop := ⟨0, 4⟩ }, children := [] },
       { name := "1", detail := "integer", kind := SymbolKind.Number, deprecated := false,
         range := { start := ⟨0, 7⟩, stop := ⟨0, 8⟩ },
         selectionRange := { start := ⟨0, 7⟩, stop := ⟨0, 8⟩ }, children := [] }] }

/-- A lambda whose parameter has neither an identifier nor formals. -/
def lambdaBareArg : Node :=
  .ExprLambda (span 0 4) (some { id := none, formals := none }) none

/-- The static attributes of `{ a = 1; b = "x"; }`, as listed. -/
def staticAB : List (String × Attribute) :=
  [("a", .mk (.AttrName (span 2 3) true "a") (some (.ExprInt (span 6 7) 1))),
   ("b", .mk (.AttrName (span 9 10) true "b") (some (.ExprString (span 13 16) true "x")))]

/-- The tree of `{ a = 1; b = "x"; }`. -/
def attrsAB : Node :=
  .ExprAttrs (span 0 19) (.mk staticAB [])

/-- An oracle that reports every variable as defined and attaches no
definition to the answer. -/
def definedNoDef : VariableLookupAnalysis :=
  { query := fun _ => { Kind := LookupResultKind.Defined, Def := none } }

/-- The variable `null` at offsets 0 to 4. -/
def varNull : ExprVar := { range := span 0 4, id := { range := span 0 4, name := "null" } }

/-- The tree of `[ 1 "x" ]`: a list of two literals. -/
def listOneX : Node :=
  .ExprList (span 0 9) [some (.ExprInt (span 2 3) 1), some (.ExprString (span 4 7) true "x")]

/-- A list whose only element is the lambda of `lambdaBareArg`. -/
def listOfBareArg : Node :=
  .ExprList (span 0 8) [some lambdaBareArg]

/-- A controller that holds one document, `a.nix`, with the text and tree of
`x: x + 1` and an oracle that resolves nothing. -/
def controller : Controller :=
  { getTU := fun File =>
      if File = "a.nix" then .ok { src := "x: x + 1", variableLookup := unresolved }
      else .error Failure.DocumentNotFound
    getAST := fun _ => .ok lambdaXPlusOne }

/-- The entry expected for the variable `x` when nothing resolves; it is the
first child of `lambdaXPlusOneEntry`. -/
def varXEntry : DocumentSymbol :=
  { name := "x", detail := "identifier", kind := SymbolKind.Variable, deprecated := true,
    range := { start := ⟨0, 3⟩, stop := ⟨0, 4⟩ },
    selectionRange := { start := ⟨0, 3⟩, stop := ⟨0, 4⟩ }, children := [] }

/-- The tree of a list whose only element is the variable `x`. -/
def listOfX : Node :=
  .ExprList (span 1 6) [some (.ExprVar varX)]

end Example

/-! ## The output is only extended -/

section frame
variable (tr : Translator) (VLA : VariableLookupAnalysis) (Src : String)

mutual
theorem collect_frame (AST : Option Node) (out : List DocumentSymbol) :
    collect tr VLA Src AST out = (collect tr VLA Src AST []).map (out ++ ·) := by
  cases AST with
  | none => simp [collect]
  | some n => simpa [collect] using collectNode_frame n out
theorem collectNode_frame (AST : Node) (out : List DocumentSymbol) :
    collectNode tr VLA Src AST out = (collectNode tr VLA Src AST []).map (out ++ ·) := by
  cases AST with
  | ExprString r b l => simp [collectNode]
  | ExprInt r v => simp [collectNode]
  | ExprFloat r v => simp [collectNode]
  | AttrName r b n => simp [collectNode]
  | ExprVar v =>
    simp only [collectNode]
    cases richVar v _ VLA <;> simp
  | ExprLambda r a b =>
    simp only [collectNode]
    cases collect tr VLA Src b [] <;> simp
    cases getLambdaSelectionRage tr Src r a <;> simp
  | ExprList r cs =>
    simp only [collectNode]
    cases collectChildren tr VLA Src cs [] <;> simp
  | ExprAttrs r sa =>
    cases sa with
    | mk s d =>
      simp only [collectNode]
      rw [collectStatic_frame s out]
      cases hs : collectStatic tr VLA Src s [] with
      | none => simp
      | some ss =>
        simp only [Option.map_some']
        rw [collectDynamic_frame d (out ++ ss), collectDynamic_frame d ss]
        cases collectDynamic tr VLA Src d [] <;> simp
  | Other r cs =>
    simpa [collectNode] using collectChildren_frame cs out
theorem collectChildren_frame (cs : List (Option Node)) (out : List DocumentSymbol) :
    collectChildren tr VLA Src cs out = (collectChildren tr VLA Src cs []).map (out ++ ·) := by
  cases cs with
  | nil => simp [collectChildren]
  | cons c rest =>
    simp only [collectChildren]
    rw [collect_frame c out]
    cases hc : collect tr VLA Src c [] with
    | none => simp
    | some e =>
      simp only [Option.map_some']
      rw [collectChildren_frame rest (out ++ e), collectChildren_frame rest e]
      cases collectChildren tr VLA Src rest [] <;> simp
theorem collectStatic_frame (s : List (String × Attribute)) (out : List DocumentSymbol) :
    collectStatic tr VLA Src s out = (collectStatic tr VLA Src s []).map (out ++ ·) := by
  match s with
  | [] => simp [collectStatic]
  | (_, .mk _ none) :: rest =>
    simpa [collectStatic] using collectStatic_frame rest out
  | (Name, .mk key (some v)) :: rest =>
    simp only [collectStatic]
    cases hc : collect tr VLA Src (some v) [] with
    | none => simp
    | some e =>
      simp only []
      rw [collectStatic_frame rest (out ++ _), collectStatic_frame rest ([] ++ _)]
      cases collectStatic tr VLA Src rest [] <;> simp
theorem collectDynamic_frame (d : List Attribute) (out : List DocumentSymbol) :
    collectDynamic tr VLA Src d out = (collectDynamic tr VLA Src d []).map (out ++ ·) := by
  match d with
  | [] => simp [collectDynamic]
  | (.mk key value) :: rest =>
    simp only [collectDynamic]
    cases hc : collect tr VLA Src value [] with
    | none => simp
    | some e =>
      simp only []
      rw [collectDynamic_frame rest (out ++ _), collectDynamic_frame rest ([] ++ _)]
      cases collectDynamic tr VLA Src rest [] <;> simp
end
end frame

/-! ## Loops as concatenations -/

section loops
variable (tr : Translator) (VLA : VariableLookupAnalysis) (Src : String)

@[simp] theorem Attribute.value_mk (k : Node) (v : Option Node) : (Attribute.mk k v).value = v := rfl

@[simp] theorem Attribute.key_mk (k : Node) (v : Option Node) : (Attribute.mk k v).key = k := rfl

theorem concatResults_map_some (parts : List (List DocumentSymbol)) :
    concatResults (parts.map some) = some parts.flatten := by
  induction parts with
  | nil => rfl
  | cons p rest ih => simp [concatResults, ih]

theorem collectChildren_eq_concat (cs : List (Option Node)) (out : List DocumentSymbol) :
    collectChildren tr VLA Src cs out
      = (concatResults (cs.map fun Ch => collect tr VLA Src Ch [])).map (out ++ ·) := by
  induction cs generalizing out with
  | nil => simp [collectChildren, concatResults]
  | cons c rest ih =>
    simp only [collectChildren, List.map_cons]
    rw [collect_frame tr VLA Src c out]
    cases hc : collect tr VLA Src c [] with
    | none => simp [concatResults]
    | some e =>
      simp only [Option.map_some', concatResults, ih (out ++ e)]
      cases concatResults (rest.map fun Ch => collect tr VLA Src Ch []) <;> simp

theorem collectStatic_iff (s : List (String × Attribute)) (ss : List DocumentSymbol) :
    collectStatic tr VLA Src s [] = some ss ↔
      List.Forall₂ (fun (a : String × Attribute) (e : DocumentSymbol) =>
          ∃ Children, collect tr VLA Src a.2.value [] = some Children ∧
            e = fieldEntry tr Src a.1 a.2 Children)
        (s.filter fun a => a.2.hasValue) ss := by
  induction s generalizing ss with
  | nil =>
    simp only [collectStatic, List.filter_nil, List.forall₂_nil_left_iff, Option.some.injEq]
    exact eq_comm
  | cons a rest ih =>
    obtain ⟨Name, key, value⟩ := a
    cases value with
    | none => simpa [collectStatic, Attribute.hasValue] using ih ss
    | some v =>
      simp only [collectStatic, Attribute.hasValue, Attribute.value_mk, Option.isSome_some,
        List.filter_cons_of_pos, List.forall₂_cons_left_iff]
      cases hc : collect tr VLA Src (some v) [] with
      | none => simp
      | some Children =>
        simp only [List.nil_append]
        rw [collectStatic_frame tr VLA Src rest]
        constructor
        · intro h
          cases hr : collectStatic tr VLA Src rest [] with
          | none => simp [hr] at h
          | some tl =>
            simp only [hr, Option.map_some', Option.some.injEq] at h
            exact ⟨_, tl, ⟨Children, rfl, rfl⟩, (ih tl).1 hr, by simpa using h.symm⟩
        · rintro ⟨e, tl, ⟨c, hc2, he⟩, htl, rfl⟩
          cases hc2
          rw [(ih tl).2 htl, he]
          simp [fieldEntry]

theorem collectDynamic_iff (d : List Attribute) (ds : List DocumentSymbol) :
    collectDynamic tr VLA Src d [] = some ds ↔
      List.Forall₂ (fun (a : Attribute) (e : DocumentSymbol) =>
          ∃ Children, collect tr VLA Src a.value [] = some Children ∧
            e = fieldEntry tr Src "$\x7bdynamic attribute\x7d" a Children)
        d ds := by
  induction d generalizing ds with
  | nil =>
    simp only [collectDynamic, List.forall₂_nil_left_iff, Option.some.injEq]
    exact eq_comm
  | cons a rest ih =>
    obtain ⟨key, value⟩ := a
    simp only [collectDynamic, Attribute.value_mk, List.forall₂_cons_left_iff]
    cases hc : collect tr VLA Src value [] with
    | none => simp
    | some Children =>
      simp only [List.nil_append]
      rw [collectDynamic_frame tr VLA Src rest]
      constructor
      · intro h
        cases hr : collectDynamic tr VLA Src rest [] with
        | none => simp [hr] at h
        | some tl =>
          simp only [hr, Option.map_some', Option.some.injEq] at h
          exact ⟨_, tl, ⟨Children, rfl, rfl⟩, (ih tl).1 hr, by simpa using h.symm⟩
      · rintro ⟨e, tl, ⟨c, hc2, he⟩, htl, rfl⟩
        cases hc2
        rw [(ih tl).2 htl, he]
        simp [fieldEntry]

/-- The two loops of the attribute set case: the output is extended by the
entries of the static attributes that have a value, then by the entries of the
dynamic attributes. -/
theorem collect_attrs_iff (range : LexerCursorRange) (s : List (String × Attribute))
    (d : List Attribute) (out res : List DocumentSymbol) :
    collect tr VLA Src (some (.ExprAttrs range (.mk s d))) out = some res ↔
      ∃ ss ds, res = out ++ ss ++ ds ∧
        List.Forall₂ (fun (a : String × Attribute) (e : DocumentSymbol) =>
            ∃ Children, collect tr VLA Src a.2.value [] = some Children ∧
              e = fieldEntry tr Src a.1 a.2 Children)
          (s.filter fun a => a.2.hasValue) ss ∧
        List.Forall₂ (fun (a : Attribute) (e : DocumentSymbol) =>
            ∃ Children, collect tr VLA Src a.value [] = some Children ∧
              e = fieldEntry tr Src "$\x7bdynamic attribute\x7d" a Children)
          d ds := by
  simp only [collect, collectNode]
  rw [collectStatic_frame tr VLA Src s out]
  constructor
  · intro h
    cases hs : collectStatic tr VLA Src s [] with
    | none => simp [hs] at h
    | some ss =>
      simp only [hs, Option.map_some'] at h
      rw [collectDynamic_frame tr VLA Src d] at h
      cases hd : collectDynamic tr VLA Src d [] with
      | none => simp [hd] at h
      | some ds =>
        simp only [hd, Option.map_some', Option.some.injEq] at h
        exact ⟨ss, ds, h.symm, (collectStatic_iff tr VLA Src s ss).1 hs,
          (collectDynamic_iff tr VLA Src d ds).1 hd⟩
  · rintro ⟨ss, ds, rfl, hs, hd⟩
    rw [(collectStatic_iff tr VLA Src s ss).2 hs]
    simp only [Option.map_some']
    rw [collectDynamic_frame tr VLA Src d, (collectDynamic_iff tr VLA Src d ds).2 hd]
    rfl

/-- Entries exist for a list of attributes as soon as `collect` returns a
forest for each value. -/
theorem exists_entries_of_values {α : Type} (value : α → Option Node)
    (entry : α → List DocumentSymbol → DocumentSymbol) (l : List α)
    (h : ∀ a ∈ l, (collect tr VLA Src (value a) []).isSome = true) :
    ∃ es, List.Forall₂ (fun (a : α) (e : DocumentSymbol) =>
        ∃ Children, collect tr VLA Src (value a) [] = some Children ∧ e = entry a Children)
      l es := by
  induction l with
  | nil => exact ⟨[], List.Forall₂.nil⟩
  | cons a rest ih =>
    obtain ⟨es, hes⟩ := ih fun b hb => h b (List.mem_cons_of_mem _ hb)
    obtain ⟨c, hc⟩ := Option.isSome_iff_exists.1 (h a (List.mem_cons_self _ _))
    exact ⟨entry a c :: es, List.Forall₂.cons ⟨c, hc, rfl⟩ hes⟩

end loops

/-! ## Entries of a forest -/

theorem allEntries_cons (e : DocumentSymbol) (rest : List DocumentSymbol) :
    allEntries (e :: rest) = e :: (allEntries e.children ++ allEntries rest) := by
  cases e
  simp [allEntries]

theorem allEntries_append (a b : List DocumentSymbol) :
    allEntries (a ++ b) = allEntries a ++ allEntries b := by
  induction a with
  | nil => simp [allEntries]
  | cons e rest ih => simp [allEntries_cons, ih]

theorem allEntries_singleton (e : DocumentSymbol) :
    allEntries [e] = e :: allEntries e.children := by
  simp [allEntries_cons, allEntries]

/-! ## Selection ranges -/

theorem Position.le_refl (p : Position) : p ≤ p :=
  Or.inr ⟨rfl, Nat.le_refl _⟩

theorem Range.contains_self (r : Range) : r.contains r :=
  ⟨Position.le_refl _, Position.le_refl _⟩

theorem markBuiltin_preserves (Result : LookupResult) (Sym Sym1 : DocumentSymbol)
    (h : richVar.markBuiltin Result Sym = some Sym1) :
    Sym1.name = Sym.name ∧ Sym1.detail = Sym.detail ∧ Sym1.deprecated = Sym.deprecated ∧
      Sym1.range = Sym.range ∧ Sym1.selectionRange = Sym.selectionRange ∧
      Sym1.children = Sym.children := by
  unfold richVar.markBuiltin at h
  split at h
  · simp at h
  · split_ifs at h <;> cases h <;> simp

/-- The entry `richVar` returns differs from the one it was given in kind,
detail and deprecation only. -/
theorem richVar_preserves (Var : ExprVar) (Sym Sym1 : DocumentSymbol)
    (VLA : VariableLookupAnalysis) (h : richVar Var Sym VLA = some Sym1) :
    Sym1.name = Sym.name ∧ Sym1.range = Sym.range ∧
      Sym1.selectionRange = Sym.selectionRange ∧ Sym1.children = Sym.children := by
  unfold richVar at h
  dsimp only at h
  split_ifs at h
  · cases h; simp
  · cases h; simp
  · obtain ⟨h1, -, -, h2, h3, h4⟩ := markBuiltin_preserves _ _ _ h
    exact ⟨h1, h2, h3, h4⟩
  · obtain ⟨h1, -, -, h2, h3, h4⟩ := markBuiltin_preserves _ _ _ h
    exact ⟨h1, h2, h3, h4⟩
  · cases h; simp

theorem lambdaSelection_contained (tr : Translator) (Src : String)
    (hmono : ∀ a b : LexerCursor, a.offset ≤ b.offset → tr Src a ≤ tr Src b)
    (range : LexerCursorRange) (arg : Option LambdaArg) (sel : Range)
    (hw : argNested range arg = true)
    (h : getLambdaSelectionRage tr Src range arg = some sel) :
    (toLSPRange tr Src range).contains sel := by
  cases arg with
  | none =>
    simp only [getLambdaSelectionRage, Option.some.injEq] at h
    subst h
    exact Range.contains_self _
  | some a =>
    obtain ⟨id, formals⟩ := a
    cases id with
    | some i =>
      simp only [getLambdaSelectionRage, Option.some.injEq] at h
      simp only [argNested, LexerCursorRange.encloses, Bool.and_eq_true, decide_eq_true_eq] at hw
      subst h
      exact ⟨hmono _ _ hw.1, hmono _ _ hw.2⟩
    | none =>
      cases formals with
      | none => simp [getLambdaSelectionRage] at h
      | some f =>
        simp only [getLambdaSelectionRage, Option.some.injEq] at h
        simp only [argNested, LexerCursorRange.encloses, Bool.and_eq_true, decide_eq_true_eq] at hw
        subst h
        exact ⟨hmono _ _ hw.1, hmono _ _ hw.2⟩

section contained
variable (tr : Translator) (VLA : VariableLookupAnalysis) (Src : String)

/-- Adding one entry whose own ranges are contained, and whose children are
fine, keeps a forest fine. -/
theorem contained_snoc (out : List DocumentSymbol) (e : DocumentSymbol)
    (hout : ∀ x ∈ allEntries out, x.range.contains x.selectionRange)
    (he : e.range.contains e.selectionRange)
    (hch : ∀ x ∈ allEntries e.children, x.range.contains x.selectionRange) :
    ∀ x ∈ allEntries (out ++ [e]), x.range.contains x.selectionRange := by
  intro x hx
  rw [allEntries_append, allEntries_singleton, List.mem_append, List.mem_cons] at hx
  rcases hx with hx | rfl | hx
  · exact hout x hx
  · exact he
  · exact hch x hx

mutual
theorem collect_contained
    (hmono : ∀ a b : LexerCursor, a.offset ≤ b.offset → tr Src a ≤ tr Src b)
    (AST : Option Node) (out res : List DocumentSymbol)
    (hw : rangesNested AST = true) (h : collect tr VLA Src AST out = some res)
    (hout : ∀ x ∈ allEntries out, x.range.contains x.selectionRange) :
    ∀ x ∈ allEntries res, x.range.contains x.selectionRange := by
  cases AST with
  | none =>
    simp only [collect, Option.some.injEq] at h
    subst h
    exact hout
  | some n =>
    simp only [collect] at h
    simp only [rangesNested] at hw
    exact collectNode_contained hmono n out res hw h hout
theorem collectNode_contained
    (hmono : ∀ a b : LexerCursor, a.offset ≤ b.offset → tr Src a ≤ tr Src b)
    (AST : Node) (out res : List DocumentSymbol)
    (hw : rangesNestedNode AST = true) (h : collectNode tr VLA Src AST out = some res)
    (hout : ∀ x ∈ allEntries out, x.range.contains x.selectionRange) :
    ∀ x ∈ allEntries res, x.range.contains x.selectionRange := by
  cases AST with
  | ExprString r b l =>
    simp only [collectNode, Option.some.injEq] at h
    subst h
    exact contained_snoc out _ hout (Range.contains_self _) (by simp [allEntries])
  | ExprInt r v =>
    simp only [collectNode, Option.some.injEq] at h
    subst h
    exact contained_snoc out _ hout (Range.contains_self _) (by simp [allEntries])
  | ExprFloat r v =>
    simp only [collectNode, Option.some.injEq] at h
    subst h
    exact contained_snoc out _ hout (Range.contains_self _) (by simp [allEntries])
  | AttrName r b n =>
    simp only [collectNode, Option.some.injEq] at h
    subst h
    exact contained_snoc out _ hout (Range.contains_self _) (by simp [allEntries])
  | ExprVar v =>
    simp only [collectNode] at h
    split at h
    · simp at h
    · rename_i Sym hSym
      simp only [Option.some.injEq] at h
      subst h
      obtain ⟨-, h2, h3, h4⟩ := richVar_preserves _ _ _ _ hSym
      refine contained_snoc out _ hout ?_ ?_
      · rw [h2, h3]; exact Range.contains_self _
      · rw [h4]; simp [allEntries]
  | ExprLambda r a b =>
    simp only [collectNode] at h
    simp only [rangesNestedNode, Bool.and_eq_true] at hw
    split at h
    · simp at h
    · rename_i Children hb
      split at h
      · simp at h
      · rename_i sel hsel
        simp only [Option.some.injEq] at h
        subst h
        refine contained_snoc out _ hout ?_ ?_
        · exact lambdaSelection_contained tr Src hmono r a sel hw.1 hsel
        · exact collect_contained hmono b [] Children hw.2 hb (by simp [allEntries])
  | ExprList r cs =>
    simp only [collectNode] at h
    simp only [rangesNestedNode] at hw
    split at h
    · simp at h
    · rename_i Children hcs
      simp only [Option.some.injEq] at h
      subst h
      refine contained_snoc out _ hout (Range.contains_self _) ?_
      exact collectChildren_contained hmono cs [] Children hw hcs (by simp [allEntries])
  | ExprAttrs r sa =>
    cases sa with
    | mk s d =>
      simp only [collectNode] at h
      simp only [rangesNestedNode, Bool.and_eq_true] at hw
      split at h
      · simp at h
      · rename_i Symbols1 hs
        exact collectDynamic_contained hmono d Symbols1 res hw.2 h
          (collectStatic_contained hmono s out Symbols1 hw.1 hs hout)
  | Other r cs =>
    simp only [collectNode] at h
    simp only [rangesNestedNode] at hw
    exact collectChildren_contained hmono cs out res hw h hout
theorem collectChildren_contained
    (hmono : ∀ a b : LexerCursor, a.offset ≤ b.offset → tr Src a ≤ tr Src b)
    (cs : List (Option Node)) (out res : List DocumentSymbol)
    (hw : rangesNestedChildren cs = true) (h : collectChildren tr VLA Src cs out = some res)
    (hout : ∀ x ∈ allEntries out, x.range.contains x.selectionRange) :
    ∀ x ∈ allEntries res, x.range.contains x.selectionRange := by
  cases cs with
  | nil =>
    simp only [collectChildren, Option.some.injEq] at h
    subst h
    exact hout
  | cons c rest =>
    simp only [collectChildren] at h
    simp only [rangesNestedChildren, Bool.and_eq_true] at hw
    split at h
    · simp at h
    · rename_i Symbols1 hc
      exact collectChildren_contained hmono rest Symbols1 res hw.2 h
        (collect_contained hmono c out Symbols1 hw.1 hc hout)
theorem collectStatic_contained
    (hmono : ∀ a b : LexerCursor, a.offset ≤ b.offset → tr Src a ≤ tr Src b)
    (s : List (String × Attribute)) (out res : List DocumentSymbol)
    (hw : rangesNestedStatic s = true) (h : collectStatic tr VLA Src s out = some res)
    (hout : ∀ x ∈ allEntries out, x.range.contains x.selectionRange) :
    ∀ x ∈ allEntries res, x.range.contains x.selectionRange := by
  match s with
  | [] =>
    simp only [collectStatic, Option.some.injEq] at h
    subst h
    exact hout
  | (_, .mk _ none) :: rest =>
    simp only [collectStatic] at h
    simp only [rangesNestedStatic] at hw
    exact collectStatic_contained hmono rest out res hw h hout
  | (Name, .mk key (some v)) :: rest =>
    simp only [collectStatic] at h
    simp only [rangesNestedStatic, Bool.and_eq_true, decide_eq_true_eq] at hw
    split at h
    · simp at h
    · rename_i Children hc
      refine collectStatic_contained hmono rest _ res hw.2 h ?_
      refine contained_snoc out _ hout ?_ ?_
      · exact ⟨Position.le_refl _, hmono _ _ hw.1.1⟩
      · exact collect_contained hmono (some v) [] Children hw.1.2 hc (by simp [allEntries])
theorem collectDynamic_contained
    (hmono : ∀ a b : LexerCursor, a.offset ≤ b.offset → tr Src a ≤ tr Src b)
    (d : List Attribute) (out res : List DocumentSymbol)
    (hw : rangesNestedDynamic d = true) (h : collectDynamic tr VLA Src d out = some res)
    (hout : ∀ x ∈ allEntries out, x.range.contains x.selectionRange) :
    ∀ x ∈ allEntries res, x.range.contains x.selectionRange := by
  match d with
  | [] =>
    simp only [collectDynamic, Option.some.injEq] at h
    subst h
    exact hout
  | (.mk key none) :: rest =>
    simp only [collectDynamic, collect] at h
    simp only [rangesNestedDynamic] at hw
    refine collectDynamic_contained hmono rest _ res hw h ?_
    exact contained_snoc out _ hout (Range.contains_self _) (by simp [allEntries])
  | (.mk key (some v)) :: rest =>
    simp only [collectDynamic] at h
    simp only [rangesNestedDynamic, Bool.and_eq_true, decide_eq_true_eq] at hw
    split at h
    · simp at h
    · rename_i Children hc
      refine collectDynamic_contained hmono rest _ res hw.2 h ?_
      refine contained_snoc out _ hout ?_ ?_
      · exact ⟨Position.le_refl _, hmono _ _ hw.1.1⟩
      · exact collect_contained hmono (some v) [] Children hw.1.2 hc (by simp [allEntries])
end
end contained

/-! ## Pass-through nodes -/

/-- C1. Flattening law. For a node whose kind has no case of its own in the
`switch`, `collect` returns the given output followed by the forests that
`collect` returns for the children on an empty output, concatenated in child
order (and it has no result exactly when one of the children has none). The
node adds no entry of its own and no level of nesting. -/
theorem collect_other_flattens (tr : Translator) (VLA : VariableLookupAnalysis) (Src : String)
    (range : LexerCursorRange) (children : List (Option Node)) (Symbols : List DocumentSymbol) :
    collect tr VLA Src (some (.Other range children)) Symbols
      = (concatResults (children.map fun Ch => collect tr VLA Src Ch [])).map (Symbols ++ ·) := by
  simp only [collect, collectNode]
  exact collectChildren_eq_concat tr VLA Src children Symbols

/-! ## Containment of the selection range -/

theorem forall₂_map_eq {α β γ : Type} {R : α → β → Prop} {l : List α} {es : List β}
    (f : β → γ) (g : α → γ) (h : List.Forall₂ R l es) (hR : ∀ a e, R a e → f e = g a) :
    es.map f = l.map g := by
  induction h with
  | nil => rfl
  | cons hae _ ih => simp [hR _ _ hae, ih]

theorem forall₂_forall_right {α β : Type} {R : α → β → Prop} {l : List α} {es : List β}
    (P : β → Prop) (h : List.Forall₂ R l es) (hR : ∀ a e, R a e → P e) :
    ∀ e ∈ es, P e := by
  induction h with
  | nil => simp
  | cons hae _ ih =>
    intro e he
    rcases List.mem_cons.1 he with rfl | he
    · exact hR _ _ hae
    · exact ih e he

/-- The number of entries the attribute set case adds: one for each static
attribute that has a value and one for each dynamic attribute, with or without
a value. -/
theorem attrs_entry_count (tr : Translator) (VLA : VariableLookupAnalysis) (Src : String)
    (range : LexerCursorRange) (s : List (String × Attribute)) (d : List Attribute)
    (out res : List DocumentSymbol)
    (h : collect tr VLA Src (some (.ExprAttrs range (.mk s d))) out = some res) :
    res.length = out.length + (s.filter fun a => a.2.hasValue).length + d.length := by
  obtain ⟨ss, ds, rfl, hs, hd⟩ := (collect_attrs_iff tr VLA Src range s d out res).1 h
  simp only [List.length_append, hs.length_eq, hd.length_eq]

/-- C4. Order of the entries of an attribute set. When `collect` returns a
forest for every attribute value, the attribute set case returns the given
output followed by the entries `ss` of the static attributes and then the
entries `ds` of the dynamic attributes; read in order, `ss` carries the names
and key ranges of the static attributes that have a value, in the order in which
the static attributes are listed, and `ds` carries the key ranges of the
dynamic attributes, in their order. All of them are Field entries. -/
theorem attrs_entries_in_order (tr : Translator) (VLA : VariableLookupAnalysis) (Src : String)
    (range : LexerCursorRange) (s : List (String × Attribute)) (d : List Attribute)
    (out : List DocumentSymbol)
    (hs : ∀ a ∈ s, (collect tr VLA Src a.2.value []).isSome = true)
    (hd : ∀ a ∈ d, (collect tr VLA Src a.value []).isSome = true) :
    ∃ ss ds, collect tr VLA Src (some (.ExprAttrs range (.mk s d))) out = some (out ++ ss ++ ds) ∧
      ss.map (fun e => (e.name, e.selectionRange))
        = (s.filter fun a => a.2.hasValue).map
            (fun a => (a.1, toLSPRange tr Src a.2.key.range)) ∧
      ds.map (fun e => (e.name, e.selectionRange))
        = d.map (fun a => ("$\x7bdynamic attribute\x7d", toLSPRange tr Src a.key.range)) ∧
      ∀ e ∈ ss ++ ds, e.kind = SymbolKind.Field := by
  obtain ⟨ss, hss⟩ := exists_entries_of_values tr VLA Src (fun a : String × Attribute => a.2.value)
    (fun a c => fieldEntry tr Src a.1 a.2 c) (s.filter fun a => a.2.hasValue)
    (fun a ha => hs a (List.mem_of_mem_filter ha))
  obtain ⟨ds, hds⟩ := exists_entries_of_values tr VLA Src (fun a : Attribute => a.value)
    (fun a c => fieldEntry tr Src "$\x7bdynamic attribute\x7d" a c) d hd
  refine ⟨ss, ds, (collect_attrs_iff tr VLA Src range s d out _).2 ⟨ss, ds, rfl, hss, hds⟩,
    ?_, ?_, ?_⟩
  · exact forall₂_map_eq _ _ hss fun a e ⟨c, _, he⟩ => by rw [he]; rfl
  · exact forall₂_map_eq _ _ hds fun a e ⟨c, _, he⟩ => by rw [he]; rfl
  · intro e he
    rcases List.mem_append.1 he with he | he
    · exact forall₂_forall_right (fun e => e.kind = SymbolKind.Field) hss
        (fun a e ⟨c, _, he⟩ => by rw [he]; rfl) e he
    · exact forall₂_forall_right (fun e => e.kind = SymbolKind.Field) hds
        (fun a e ⟨c, _, he⟩ => by rw [he]; rfl) e he

/-- C4 at `{ a = 1; b = "x"; }`: the entry of `a`, selected at columns 2 to 3,
then the entry of `b`, selected at columns 9 to 10. -/
theorem attrs_entries_in_order_witness :
    ∃ ss ds, collect Example.columns Example.unresolved "" (some Example.attrsAB) []
        = some ([] ++ ss ++ ds) ∧
      ss.map (fun e => (e.name, e.selectionRange))
        = [("a", { start := ⟨0, 2⟩, stop := ⟨0, 3⟩ }), ("b", { start := ⟨0, 9⟩, stop := ⟨0, 10⟩ })] ∧
      ds.map (fun e => (e.name, e.selectionRange)) = [] ∧
      ∀ e ∈ ss ++ ds, e.kind = SymbolKind.Field :=
  attrs_entries_in_order Example.columns Example.unresolved "" (Example.span 0 19)
    Example.staticAB [] []
    (by
      intro a ha
      simp only [Example.staticAB, List.mem_cons, List.mem_singleton, List.not_mem_nil,
        or_false] at ha
      rcases ha with rfl | rfl <;> rfl)
    (by simp)

theorem getAttrRange_start (tr : Translator) (Src : String) (Attr : Attribute) :
    (getAttrRange tr Src Attr).start = tr Src Attr.key.lCur := by
  unfold getAttrRange
  cases Attr.value <;> rfl

/-- C9. The entry of an attribute. When `collect` returns a forest for every
attribute value, the attribute set case appends one entry for each static
attribute that has a value and then one for each dynamic attribute, and each
entry `e` of an attribute `a` is a Field entry, not deprecated, named by the
static name (by the fixed text for a dynamic attribute), with its range
starting at the translated start of the key and ending at the translated end
of the value (of the key when there is no value), its selection range the
translated range of the key, and its children the forest `collect` returns for
the value on an empty output. -/
theorem attribute_entry_fields (tr : Translator) (VLA : VariableLookupAnalysis) (Src : String)
    (range : LexerCursorRange) (s : List (String × Attribute)) (d : List Attribute)
    (out : List DocumentSymbol)
    (hs : ∀ a ∈ s, (collect tr VLA Src a.2.value []).isSome = true)
    (hd : ∀ a ∈ d, (collect tr VLA Src a.value []).isSome = true) :
    ∃ ss ds, collect tr VLA Src (some (.ExprAttrs range (.mk s d))) out = some (out ++ ss ++ ds) ∧
      List.Forall₂ (fun (a : String × Attribute) (e : DocumentSymbol) =>
          e.kind = SymbolKind.Field ∧ e.name = a.1 ∧ e.deprecated = false ∧
          e.range.start = tr Src a.2.key.lCur ∧
          (∀ v, a.2.value = some v → e.range.stop = tr Src v.rCur) ∧
          (a.2.value = none → e.range.stop = tr Src a.2.key.rCur) ∧
          e.selectionRange = toLSPRange tr Src a.2.key.range ∧
          collect tr VLA Src a.2.value [] = some e.children)
        (s.filter fun a => a.2.hasValue) ss ∧
      List.Forall₂ (fun (a : Attribute) (e : DocumentSymbol) =>
          e.kind = SymbolKind.Field ∧ e.name = "$\x7bdynamic attribute\x7d" ∧
          e.deprecated = false ∧
          e.range.start = tr Src a.key.lCur ∧
          (∀ v, a.value = some v → e.range.stop = tr Src v.rCur) ∧
          (a.value = none → e.range.stop = tr Src a.key.rCur) ∧
          e.selectionRange = toLSPRange tr Src a.key.range ∧
          collect tr VLA Src a.value [] = some e.children)
        d ds := by
  obtain ⟨ss, hss⟩ := exists_entries_of_values tr VLA Src (fun a : String × Attribute => a.2.value)
    (fun a c => fieldEntry tr Src a.1 a.2 c) (s.filter fun a => a.2.hasValue)
    (fun a ha => hs a (List.mem_of_mem_filter ha))
  obtain ⟨ds, hds⟩ := exists_entries_of_values tr VLA Src (fun a : Attribute => a.value)
    (fun a c => fieldEntry tr Src "$\x7bdynamic attribute\x7d" a c) d hd
  refine ⟨ss, ds, (collect_attrs_iff tr VLA Src range s d out _).2 ⟨ss, ds, rfl, hss, hds⟩,
    ?_, ?_⟩
  · refine hss.imp ?_
    rintro a e ⟨c, hc, rfl⟩
    refine ⟨rfl, rfl, rfl, getAttrRange_start tr Src _, ?_, ?_, rfl, hc⟩
    · intro v hv
      simp [fieldEntry, getAttrRange, hv]
    · intro hv
      simp [fieldEntry, getAttrRange, hv]
  · refine hds.imp ?_
    rintro a e ⟨c, hc, rfl⟩
    refine ⟨rfl, rfl, rfl, getAttrRange_start tr Src _, ?_, ?_, rfl, hc⟩
    · intro v hv
      simp [fieldEntry, getAttrRange, hv]
    · intro hv
      simp [fieldEntry, getAttrRange, hv]

/-- C9 at `{ a = 1; b = "x"; }`: two entries, and the first is the Field `a`
from column 2, the start of the key, to column 7, the end of the value, selected
at the key, with the entry of `1` as its only child. -/
theorem attribute_entry_fields_witness :
    ∃ e1 e2, collect Example.columns Example.unresolved "" (some Example.attrsAB) []
        = some [e1, e2] ∧
      e1.kind = SymbolKind.Field ∧ e1.name = "a" ∧
      e1.range = { start := ⟨0, 2⟩, stop := ⟨0, 7⟩ } ∧
      e1.selectionRange = { start := ⟨0, 2⟩, stop := ⟨0, 3⟩ } ∧
      collect Example.columns Example.unresolved "" (some (.ExprInt (Example.span 6 7) 1)) []
        = some e1.children := by
  obtain ⟨ss, ds, h, hss, hds⟩ :=
    attribute_entry_fields Example.columns Example.unresolved "" (Example.span 0 19)
      Example.staticAB [] []
      (by
        intro a ha
        simp only [Example.staticAB, List.mem_cons, List.mem_singleton, List.not_mem_nil,
          or_false] at ha
        rcases ha with rfl | rfl <;> rfl)
      (by simp)
  cases hds
  cases hss with
  | cons h1 hrest =>
    cases hrest with
    | cons h2 hnil =>
      cases hnil
      obtain ⟨hk, hn, -, hstart, hstop, -, hsel, hch⟩ := h1
      refine ⟨_, _, h, hk, hn, ?_, hsel, hch⟩
      have hstop1 := hstop _ rfl
      rename_i e1 e2
      cases hr : e1.range
      rw [hr] at hstart hstop1
      simp only at hstart hstop1
      rw [hstart, hstop1]
      rfl

/-! ## Variables -/

/-- The variable case: the default entry, made rich, is appended. -/
theorem collect_var_eq (tr : Translator) (VLA : VariableLookupAnalysis) (Src : String)
    (Var : ExprVar) (out : List DocumentSymbol) :
    collect tr VLA Src (some (.ExprVar Var)) out
      = (richVar Var
          { name := Var.id.name, detail := "identifier", kind := SymbolKind.Variable,
            deprecated := false, range := toLSPRange tr Src Var.range,
            selectionRange := toLSPRange tr Src Var.range, children := [] } VLA).map
          (fun Sym => out ++ [Sym]) := by
  simp only [collect, collectNode]
  cases richVar Var _ VLA <;> rfl

/-- C5. For a variable whose text is `true`, `false` or `null` the result of
`collect` is the same under any two oracles: one entry is appended, not marked
deprecated, of kind Null for `null` and of kind Boolean for `true` and `false`. -/
theorem literal_names_ignore_oracle (tr : Translator) (VLA1 VLA2 : VariableLookupAnalysis)
    (Src : String) (Var : ExprVar) (out : List DocumentSymbol)
    (h : Var.id.name = "true" ∨ Var.id.name = "false" ∨ Var.id.name = "null") :
    collect tr VLA1 Src (some (.ExprVar Var)) out = collect tr VLA2 Src (some (.ExprVar Var)) out ∧
      ∃ e, collect tr VLA1 Src (some (.ExprVar Var)) out = some (out ++ [e]) ∧
        e.deprecated = false ∧
        e.kind = (if Var.id.name = "null" then SymbolKind.Null else SymbolKind.Boolean) := by
  simp only [collect_var_eq]
  rcases h with h | h | h <;> simp [richVar, h]

/-- C5 at the variable `true`: an oracle that resolves nothing and an oracle
that reports a definition give the same Boolean entry. -/
theorem literal_names_ignore_oracle_witness :
    collect Example.columns Example.unresolved "" (some (.ExprVar Example.varTrue)) []
        = collect Example.columns Example.definedPlain "" (some (.ExprVar Example.varTrue)) [] ∧
      ∃ e, collect Example.columns Example.unresolved "" (some (.ExprVar Example.varTrue)) []
          = some ([] ++ [e]) ∧
        e.deprecated = false ∧
        e.kind = (if Example.varTrue.id.name = "null" then SymbolKind.Null
          else SymbolKind.Boolean) :=
  literal_names_ignore_oracle Example.columns Example.unresolved Example.definedPlain ""
    Example.varTrue [] (Or.inl rfl)

/-- C6, as stated, fails. The variable `true` under an oracle whose answer for
it is Unresolved: `richVar` returns before the lookup, and the entry is a
Boolean that is not marked deprecated. -/
theorem unresolved_true_not_deprecated :
    (Example.unresolved.query Example.varTrue).Kind = LookupResultKind.Unresolved ∧
      ∃ e, collect Example.columns Example.unresolved "" (some (.ExprVar Example.varTrue)) []
          = some [e] ∧
        e.deprecated = false ∧ e.kind = SymbolKind.Boolean ∧ e.detail = "builtin boolean" :=
  ⟨rfl, _, rfl, rfl, rfl, rfl⟩

/-- C6, amended. For a variable whose text is none of `true`, `false` and
`null` and for which the oracle answers Unresolved, `collect` appends one entry
marked deprecated, with the kind Variable (so not Event) and the detail
"identifier" it had before the classification. -/
theorem unresolved_variable_deprecated (tr : Translator) (VLA : VariableLookupAnalysis)
    (Src : String) (Var : ExprVar) (out : List DocumentSymbol)
    (hname : Var.id.name ≠ "true" ∧ Var.id.name ≠ "false" ∧ Var.id.name ≠ "null")
    (hq : (VLA.query Var).Kind = LookupResultKind.Unresolved) :
    ∃ e, collect tr VLA Src (some (.ExprVar Var)) out = some (out ++ [e]) ∧
      e.deprecated = true ∧ e.kind ≠ SymbolKind.Event ∧
      e.kind = SymbolKind.Variable ∧ e.detail = "identifier" := by
  simp [collect_var_eq, richVar, hname.1, hname.2.1, hname.2.2, hq]

/-- The amended C6 at the undefined variable `x`. -/
theorem unresolved_variable_deprecated_witness :
    ∃ e, collect Example.columns Example.unresolved "" (some (.ExprVar Example.varX)) []
        = some ([] ++ [e]) ∧
      e.deprecated = true ∧ e.kind ≠ SymbolKind.Event ∧
      e.kind = SymbolKind.Variable ∧ e.detail = "identifier" :=
  unresolved_variable_deprecated Example.columns Example.unresolved "" Example.varX []
    (by decide) rfl

/-- C7, as stated, fails. The variable `x` under an oracle that answers
FromWith with a definition of builtin origin: the test of `isBuiltin` after the
classification is reached from the FromWith branch too, and the kind is Event. -/
theorem fromWith_builtin_is_event :
    Example.fromWithBuiltin.query Example.varX
        = { Kind := LookupResultKind.FromWith, Def := some { isBuiltin := true } } ∧
      ∃ e, collect Example.columns Example.fromWithBuiltin "" (some (.ExprVar Example.varX)) []
          = some [e] ∧
        e.kind = SymbolKind.Event ∧ e.kind ≠ SymbolKind.Variable :=
  ⟨rfl, _, rfl, rfl, by decide⟩

/-- C7, amended. For a variable whose text is none of `true`, `false` and
`null` and for which the oracle answers Defined or FromWith with a definition
attached, `collect` appends one entry that is not marked deprecated; its kind is
Event when the definition is of builtin origin, whichever of the two answers
it came with, and otherwise Constant for Defined and Variable for FromWith. -/
theorem resolved_variable_kind (tr : Translator) (VLA : VariableLookupAnalysis)
    (Src : String) (Var : ExprVar) (out : List DocumentSymbol)
    (hname : Var.id.name ≠ "true" ∧ Var.id.name ≠ "false" ∧ Var.id.name ≠ "null")
    (k : LookupResultKind) (d : Definition)
    (hq : VLA.query Var = { Kind := k, Def := some d })
    (hk : k = LookupResultKind.Defined ∨ k = LookupResultKind.FromWith) :
    ∃ e, collect tr VLA Src (some (.ExprVar Var)) out = some (out ++ [e]) ∧
      e.deprecated = false ∧
      e.kind = (if d.isBuiltin = true then SymbolKind.Event
        else if k = LookupResultKind.Defined then SymbolKind.Constant
        else SymbolKind.Variable) := by
  rcases hk with rfl | rfl <;> cases hb : d.isBuiltin <;>
    simp [collect_var_eq, richVar, richVar.markBuiltin, hname.1, hname.2.1, hname.2.2, hq, hb]

/-- The amended C7 at the variable `x` defined by a binding that is not
builtin: the kind is Constant. -/
theorem resolved_variable_kind_witness :
    ∃ e, collect Example.columns Example.definedPlain "" (some (.ExprVar Example.varX)) []
        = some ([] ++ [e]) ∧
      e.deprecated = false ∧ e.kind = SymbolKind.Constant :=
  resolved_variable_kind Example.columns Example.definedPlain "" Example.varX []
    (by decide) LookupResultKind.Defined { isBuiltin := false } rfl (Or.inl rfl)

/-! ## Lambdas -/

/-- The lambda case, once the body and the selection range are there. -/
theorem collect_lambda_eq (tr : Translator) (VLA : VariableLookupAnalysis) (Src : String)
    (range : LexerCursorRange) (arg : Option LambdaArg) (body : Option Node)
    (out Children : List DocumentSymbol) (sel : Range)
    (hbody : collect tr VLA Src body [] = some Children)
    (hsel : getLambdaSelectionRage tr Src range arg = some sel) :
    collect tr VLA Src (some (.ExprLambda range arg body)) out
      = some (out ++ [{ name := getLambdaName arg, detail := "lambda",
                        kind := SymbolKind.Function, deprecated := false,
                        range := toLSPRange tr Src range, selectionRange := sel,
                        children := Children }]) := by
  simp only [collect, collectNode, hbody, hsel]

/-- C8. Selection range of the entry of a lambda whose body `collect` returns a
forest for: the translated range of the whole lambda when there is no
parameter; the translated range of the formals when the parameter has formals
and no identifier; the translated range of the identifier when the parameter
has one, with or without formals. -/
theorem lambda_selectionRange (tr : Translator) (VLA : VariableLookupAnalysis) (Src : String)
    (range : LexerCursorRange) (arg : Option LambdaArg) (body : Option Node)
    (out Children : List DocumentSymbol)
    (hbody : collect tr VLA Src body [] = some Children) :
    (arg = none →
      ∃ e, collect tr VLA Src (some (.ExprLambda range arg body)) out = some (out ++ [e]) ∧
        e.selectionRange = toLSPRange tr Src range) ∧
    (∀ f, arg = some { id := none, formals := some f } →
      ∃ e, collect tr VLA Src (some (.ExprLambda range arg body)) out = some (out ++ [e]) ∧
        e.selectionRange = toLSPRange tr Src f.range) ∧
    (∀ i fs, arg = some { id := some i, formals := fs } →
      ∃ e, collect tr VLA Src (some (.ExprLambda range arg body)) out = some (out ++ [e]) ∧
        e.selectionRange = toLSPRange tr Src i.range) := by
  refine ⟨?_, ?_, ?_⟩
  · rintro rfl
    exact ⟨_, collect_lambda_eq tr VLA Src range none body out Children _ hbody rfl, rfl⟩
  · rintro f rfl
    exact ⟨_, collect_lambda_eq tr VLA Src range _ body out Children _ hbody rfl, rfl⟩
  · rintro i fs rfl
    exact ⟨_, collect_lambda_eq tr VLA Src range _ body out Children _ hbody rfl, rfl⟩

/-- C8 at `x: x + 1`: the selection range of the entry is the parameter `x`,
columns 0 to 1. -/
theorem lambda_selectionRange_witness :
    ∃ e, collect Example.columns Example.unresolved "" (some Example.lambdaXPlusOne) []
        = some ([] ++ [e]) ∧
      e.selectionRange = { start := ⟨0, 0⟩, stop := ⟨0, 1⟩ } :=
  (lambda_selectionRange Example.columns Example.unresolved "" (Example.span 0 8)
    (some { id := some { range := Example.span 0 1, name := "x" }, formals := none })
    (some (.Other (Example.span 3 8)
      [some (.ExprVar Example.varX), some (.ExprInt (Example.span 7 8) 1)]))
    [] Example.lambdaXPlusOneEntry.children rfl).2.2 _ _ rfl

/-- C10, as stated, fails. A lambda whose parameter has neither an identifier
nor formals: the assertion in `getLambdaSelectionRage` does not hold, and
`collect` returns no forest, so no entry is emitted for the lambda. -/
theorem lambda_bare_arg_no_entry :
    collect Example.columns Example.unresolved "" (some Example.lambdaBareArg) [] = none ∧
      ¬ ∃ e, collect Example.columns Example.unresolved "" (some Example.lambdaBareArg) []
        = some [e] :=
  ⟨rfl, fun ⟨_, h⟩ => Option.noConfusion (Eq.trans (Eq.symm h) rfl : some _ = none)⟩

/-- C10, amended. For a lambda whose parameter, when there is one, has an
identifier or formals, and for whose body `collect` returns the forest
`Children`, `collect` appends exactly one entry: kind Function, detail
"lambda", not deprecated, range the translated range of the lambda, children
`Children`, and name the identifier of the parameter, or "(anonymous lambda)"
when there is no parameter or the parameter has no identifier. -/
theorem lambda_entry (tr : Translator) (VLA : VariableLookupAnalysis) (Src : String)
    (range : LexerCursorRange) (arg : Option LambdaArg) (body : Option Node)
    (out Children : List DocumentSymbol)
    (hbody : collect tr VLA Src body [] = some Children)
    (harg : ∀ a, arg = some a → a.id = none → a.formals.isSome = true) :
    ∃ e, collect tr VLA Src (some (.ExprLambda range arg body)) out = some (out ++ [e]) ∧
      e.kind = SymbolKind.Function ∧ e.detail = "lambda" ∧ e.deprecated = false ∧
      e.range = toLSPRange tr Src range ∧ e.children = Children ∧
      (∀ a i, arg = some a → a.id = some i → e.name = i.name) ∧
      (arg = none → e.name = "(anonymous lambda)") ∧
      (∀ a, arg = some a → a.id = none → e.name = "(anonymous lambda)") := by
  have hsel : ∃ sel, getLambdaSelectionRage tr Src range arg = some sel := by
    cases arg with
    | none => exact ⟨_, rfl⟩
    | some a =>
      obtain ⟨id, formals⟩ := a
      cases id with
      | some i => exact ⟨_, rfl⟩
      | none =>
        cases formals with
        | some f => exact ⟨_, rfl⟩
        | none => simpa using harg _ rfl rfl
  obtain ⟨sel, hsel⟩ := hsel
  refine ⟨_, collect_lambda_eq tr VLA Src range arg body out Children sel hbody hsel,
    rfl, rfl, rfl, rfl, rfl, ?_, ?_, ?_⟩
  · rintro a i rfl hi
    simp [getLambdaName, hi]
  · rintro rfl
    rfl
  · rintro a rfl hi
    simp [getLambdaName, hi]

/-- The amended C10 at `x: x + 1`: one Function entry named `x` whose children
are the entries of `x` and of `1`, in that order. -/
theorem lambda_entry_witness :
    ∃ e, collect Example.columns Example.unresolved "" (some Example.lambdaXPlusOne) []
        = some ([] ++ [e]) ∧
      e.kind = SymbolKind.Function ∧ e.detail = "lambda" ∧ e.name = "x" ∧
      e.children.map (fun c => (c.name, c.kind))
        = [("x", SymbolKind.Variable), ("1", SymbolKind.Number)] := by
  obtain ⟨e, h, hk, hd, -, -, hc, hn, -, -⟩ :=
    lambda_entry Example.columns Example.unresolved "" (Example.span 0 8)
      (some { id := some { range := Example.span 0 1, name := "x" }, formals := none })
      (some (.Other (Example.span 3 8)
        [some (.ExprVar Example.varX), some (.ExprInt (Example.span 7 8) 1)]))
      [] Example.lambdaXPlusOneEntry.children rfl (by simp)
  exact ⟨e, h, hk, hd, hn _ _ rfl rfl, by rw [hc]; rfl⟩

/-! ## Depth of the forest -/

theorem forestDepth_cons (e : DocumentSymbol) (rest : List DocumentSymbol) :
    forestDepth (e :: rest) = max (forestDepth e.children + 1) (forestDepth rest) := by
  cases e
  simp [forestDepth, entryDepth]

theorem forestDepth_append (a b : List DocumentSymbol) :
    forestDepth (a ++ b) = max (forestDepth a) (forestDepth b) := by
  induction a with
  | nil => simp [forestDepth]
  | cons e rest ih => simp [forestDepth_cons, ih, max_assoc]

theorem forestDepth_snoc (out : List DocumentSymbol) (e : DocumentSymbol) :
    forestDepth (out ++ [e]) = max (forestDepth out) (forestDepth e.children + 1) := by
  rw [forestDepth_append, forestDepth_cons]
  simp [forestDepth]

section depth
variable (tr : Translator) (VLA : VariableLookupAnalysis) (Src : String)

mutual
theorem collect_depth (AST : Option Node) (out res : List DocumentSymbol)
    (h : collect tr VLA Src AST out = some res) :
    forestDepth res ≤ max (forestDepth out) (treeDepth AST) := by
  cases AST with
  | none =>
    simp only [collect, Option.some.injEq] at h
    subst h
    exact le_max_left _ _
  | some n =>
    simp only [collect] at h
    simp only [treeDepth]
    exact collectNode_depth n out res h
theorem collectNode_depth (AST : Node) (out res : List DocumentSymbol)
    (h : collectNode tr VLA Src AST out = some res) :
    forestDepth res ≤ max (forestDepth out) (treeDepthNode AST) := by
  cases AST with
  | ExprString r b l =>
    simp only [collectNode, Option.some.injEq] at h
    subst h
    simp [forestDepth_snoc, forestDepth, treeDepthNode]
  | ExprInt r v =>
    simp only [collectNode, Option.some.injEq] at h
    subst h
    simp [forestDepth_snoc, forestDepth, treeDepthNode]
  | ExprFloat r v =>
    simp only [collectNode, Option.some.injEq] at h
    subst h
    simp [forestDepth_snoc, forestDepth, treeDepthNode]
  | AttrName r b n =>
    simp only [collectNode, Option.some.injEq] at h
    subst h
    simp [forestDepth_snoc, forestDepth, treeDepthNode]
  | ExprVar v =>
    simp only [collectNode] at h
    split at h
    · simp at h
    · rename_i Sym hSym
      simp only [Option.some.injEq] at h
      subst h
      obtain ⟨-, -, -, h4⟩ := richVar_preserves _ _ _ _ hSym
      simp [forestDepth_snoc, h4, forestDepth, treeDepthNode]
  | ExprLambda r a b =>
    simp only [collectNode] at h
    split at h
    · simp at h
    · rename_i Children hb
      split at h
      · simp at h
      · simp only [Option.some.injEq] at h
        subst h
        have ih := collect_depth b [] Children hb
        simp only [forestDepth, Nat.zero_max] at ih
        simp only [forestDepth_snoc, treeDepthNode]
        omega
  | ExprList r cs =>
    simp only [collectNode] at h
    split at h
    · simp at h
    · rename_i Children hcs
      simp only [Option.some.injEq] at h
      subst h
      have ih := collectChildren_depth cs [] Children hcs
      simp only [forestDepth, Nat.zero_max] at ih
      simp only [forestDepth_snoc, treeDepthNode]
      omega
  | ExprAttrs r sa =>
    cases sa with
    | mk s d =>
      simp only [collectNode] at h
      split at h
      · simp at h
      · rename_i Symbols1 hs
        have ih1 := collectStatic_depth s out Symbols1 hs
        have ih2 := collectDynamic_depth d Symbols1 res h
        simp only [treeDepthNode]
        omega
  | Other r cs =>
    simp only [collectNode] at h
    have ih := collectChildren_depth cs out res h
    simp only [treeDepthNode]
    omega
theorem collectChildren_depth (cs : List (Option Node)) (out res : List DocumentSymbol)
    (h : collectChildren tr VLA Src cs out = some res) :
    forestDepth res ≤ max (forestDepth out) (treeDepthChildren cs) := by
  cases cs with
  | nil =>
    simp only [collectChildren, Option.some.injEq] at h
    subst h
    exact le_max_left _ _
  | cons c rest =>
    simp only [collectChildren] at h
    split at h
    · simp at h
    · rename_i Symbols1 hc
      have ih1 := collect_depth c out Symbols1 hc
      have ih2 := collectChildren_depth rest Symbols1 res h
      simp only [treeDepthChildren]
      omega
theorem collectStatic_depth (s : List (String × Attribute)) (out res : List DocumentSymbol)
    (h : collectStatic tr VLA Src s out = some res) :
    forestDepth res ≤ max (forestDepth out) (treeDepthStatic s + 1) := by
  match s with
  | [] =>
    simp only [collectStatic, Option.some.injEq] at h
    subst h
    exact le_max_left _ _
  | (_, .mk _ none) :: rest =>
    simp only [collectStatic] at h
    have ih := collectStatic_depth rest out res h
    simp only [treeDepthStatic]
    omega
  | (Name, .mk key (some v)) :: rest =>
    simp only [collectStatic] at h
    split at h
    · simp at h
    · rename_i Children hc
      have ih1 := collect_depth (some v) [] Children hc
      have ih2 := collectStatic_depth rest _ res h
      simp only [forestDepth, Nat.zero_max] at ih1
      simp only [forestDepth_snoc] at ih2
      simp only [treeDepthStatic]
      omega
theorem collectDynamic_depth (d : List Attribute) (out res : List DocumentSymbol)
    (h : collectDynamic tr VLA Src d out = some res) :
    forestDepth res ≤ max (forestDepth out) (treeDepthDynamic d + 1) := by
  match d with
  | [] =>
    simp only [collectDynamic, Option.some.injEq] at h
    subst h
    exact le_max_left _ _
  | (.mk key value) :: rest =>
    simp only [collectDynamic] at h
    split at h
    · simp at h
    · rename_i Children hc
      have ih1 := collect_depth value [] Children hc
      have ih2 := collectDynamic_depth rest _ res h
      simp only [forestDepth, Nat.zero_max] at ih1
      simp only [forestDepth_snoc] at ih2
      simp only [treeDepthDynamic]
      omega
end
end depth

/-- C11. The forest `collect` returns for a tree on an empty output is nested
no deeper than the tree, where the body of a lambda, the elements of a list,
the values of the attributes of an attribute set and the children of a
pass-through node count as one level below their node. -/
theorem forest_depth_le_tree_depth (tr : Translator) (VLA : VariableLookupAnalysis)
    (Src : String) (AST : Option Node) (forest : List DocumentSymbol)
    (h : collect tr VLA Src AST [] = some forest) :
    forestDepth forest ≤ treeDepth AST := by
  have hd := collect_depth tr VLA Src AST [] forest h
  simpa [forestDepth] using hd

/-- C11 at `x: x + 1`: a forest of depth 2 from a tree of depth 3. -/
theorem forest_depth_le_tree_depth_witness :
    forestDepth [Example.lambdaXPlusOneEntry] = 2 ∧ treeDepth (some Example.lambdaXPlusOne) = 3 ∧
      forestDepth [Example.lambdaXPlusOneEntry] ≤ treeDepth (some Example.lambdaXPlusOne) :=
  ⟨rfl, rfl, forest_depth_le_tree_depth Example.columns Example.unresolved ""
    (some Example.lambdaXPlusOne) [Example.lambdaXPlusOneEntry] rfl⟩

/-! ## When the traversal returns -/

theorem richVar_isSome (Var : ExprVar) (Sym : DocumentSymbol) (VLA : VariableLookupAnalysis) :
    (richVar Var Sym VLA).isSome = varSafe VLA Var := by
  unfold richVar varSafe richVar.markBuiltin
  by_cases h1 : Var.id.name = "true"
  · simp [h1]
  by_cases h2 : Var.id.name = "false"
  · simp [h2]
  by_cases h3 : Var.id.name = "null"
  · simp [h3]
  simp only [h1, h2, h3, or_self, if_false, decide_False, Bool.false_or]
  cases hk : (VLA.query Var).Kind <;> cases hd : (VLA.query Var).Def <;> simp <;>
    split <;> simp

theorem lambdaSelection_isSome (tr : Translator) (Src : String) (range : LexerCursorRange)
    (arg : Option LambdaArg) :
    (getLambdaSelectionRage tr Src range arg).isSome = argSafe arg := by
  cases arg with
  | none => rfl
  | some a =>
    obtain ⟨id, formals⟩ := a
    cases id <;> cases formals <;> rfl

section returns
variable (tr : Translator) (VLA : VariableLookupAnalysis) (Src : String)

mutual
theorem collect_isSome (AST : Option Node) (out : List DocumentSymbol) :
    (collect tr VLA Src AST out).isSome = runsThrough VLA AST := by
  cases AST with
  | none => simp [collect, runsThrough]
  | some n =>
    simp only [collect, runsThrough]
    exact collectNode_isSome n out
theorem collectNode_isSome (AST : Node) (out : List DocumentSymbol) :
    (collectNode tr VLA Src AST out).isSome = runsThroughNode VLA AST := by
  cases AST with
  | ExprString r b l => simp [collectNode, runsThroughNode]
  | ExprInt r v => simp [collectNode, runsThroughNode]
  | ExprFloat r v => simp [collectNode, runsThroughNode]
  | AttrName r b n => simp [collectNode, runsThroughNode]
  | ExprVar v =>
    simp only [collectNode, runsThroughNode]
    rw [← richVar_isSome v _ VLA]
    cases richVar v _ VLA <;> rfl
  | ExprLambda r a b =>
    have ih := collect_isSome b []
    have hs := lambdaSelection_isSome tr Src r a
    simp only [collectNode, runsThroughNode, ← ih, ← hs]
    cases collect tr VLA Src b [] <;> cases getLambdaSelectionRage tr Src r a <;> rfl
  | ExprList r cs =>
    have ih := collectChildren_isSome cs []
    simp only [collectNode, runsThroughNode, ← ih]
    cases collectChildren tr VLA Src cs [] <;> rfl
  | ExprAttrs r sa =>
    cases sa with
    | mk s d =>
      have ih1 := collectStatic_isSome s out
      simp only [collectNode, runsThroughNode, ← ih1]
      cases hs : collectStatic tr VLA Src s out with
      | none => rfl
      | some Symbols1 => simpa using collectDynamic_isSome d Symbols1
  | Other r cs =>
    simp only [collectNode, runsThroughNode]
    exact collectChildren_isSome cs out
theorem collectChildren_isSome (cs : List (Option Node)) (out : List DocumentSymbol) :
    (collectChildren tr VLA Src cs out).isSome = runsThroughChildren VLA cs := by
  cases cs with
  | nil => simp [collectChildren, runsThroughChildren]
  | cons c rest =>
    have ih1 := collect_isSome c out
    simp only [collectChildren, runsThroughChildren, ← ih1]
    cases hc : collect tr VLA Src c out with
    | none => rfl
    | some Symbols1 => simpa using collectChildren_isSome rest Symbols1
theorem collectStatic_isSome (s : List (String × Attribute)) (out : List DocumentSymbol) :
    (collectStatic tr VLA Src s out).isSome = runsThroughStatic VLA s := by
  match s with
  | [] => simp [collectStatic, runsThroughStatic]
  | (_, .mk _ none) :: rest =>
    simp only [collectStatic, runsThroughStatic]
    exact collectStatic_isSome rest out
  | (Name, .mk key (some v)) :: rest =>
    have ih1 := collect_isSome (some v) []
    simp only [collectStatic, runsThroughStatic, ← ih1]
    cases hc : collect tr VLA Src (some v) [] with
    | none => rfl
    | some Children => simpa using collectStatic_isSome rest _
theorem collectDynamic_isSome (d : List Attribute) (out : List DocumentSymbol) :
    (collectDynamic tr VLA Src d out).isSome = runsThroughDynamic VLA d := by
  match d with
  | [] => simp [collectDynamic, runsThroughDynamic]
  | (.mk key value) :: rest =>
    have ih1 := collect_isSome value []
    simp only [collectDynamic, runsThroughDynamic, ← ih1]
    cases hc : collect tr VLA Src value [] with
    | none => rfl
    | some Children => simpa using collectDynamic_isSome rest _
end
end returns

/-- C12, as stated, fails. Under an oracle that answers Defined without a
definition, the variable `x` makes `richVar` dereference the missing
definition; and a list holding a lambda whose parameter has neither an
identifier nor formals hits the assertion of `getLambdaSelectionRage`. In both
runs `collect` returns no forest. -/
theorem collect_without_forest :
    (Example.definedNoDef.query Example.varX).Kind = LookupResultKind.Defined ∧
      (Example.definedNoDef.query Example.varX).Def = none ∧
      collect Example.columns Example.definedNoDef "" (some (.ExprVar Example.varX)) [] = none ∧
      collect Example.columns Example.unresolved "" (some Example.listOfBareArg) [] = none :=
  ⟨rfl, rfl, rfl, rfl⟩

/-- C12, amended. `collect` is defined on every tree, output and oracle, and it
returns a forest exactly when `runsThrough` holds: every lambda it reaches has
no parameter or a parameter with an identifier or formals, and every variable
it reaches is named `true`, `false` or `null`, or is answered Unresolved, or is
answered with a definition attached. Lambdas without a parameter, attributes
without a value, null children and Unresolved answers never end the run. -/
theorem collect_returns_iff_runsThrough (tr : Translator) (VLA : VariableLookupAnalysis)
    (Src : String) (AST : Option Node) (out : List DocumentSymbol) :
    (collect tr VLA Src AST out).isSome = runsThrough VLA AST :=
  collect_isSome tr VLA Src AST out

/-! ## The request -/

/-- C13. The reply of the request. When `getTU` fails the reply is that
failure; when `getTU` succeeds and `getAST` fails the reply is the failure of
`getAST`; in both cases no forest is part of the reply and the reply is the
same whatever the position translation given to `collect`. When both succeed
the reply is the forest `collect` returns for the root on an empty output. -/
theorem onDocumentSymbol_reply (C : Controller) (tr : Translator) (File : String) :
    (∀ e, C.getTU File = .error e →
      ∀ tr1 : Translator, C.onDocumentSymbol tr1 File = some (.error e)) ∧
    (∀ TU e, C.getTU File = .ok TU → C.getAST TU = .error e →
      ∀ tr1 : Translator, C.onDocumentSymbol tr1 File = some (.error e)) ∧
    (∀ TU AST, C.getTU File = .ok TU → C.getAST TU = .ok AST →
      C.onDocumentSymbol tr File
        = (collect tr TU.variableLookup TU.src (some AST) []).map Except.ok) := by
  refine ⟨?_, ?_, ?_⟩
  · intro e h tr1
    simp [Controller.onDocumentSymbol, CheckDefault, h]
  · intro TU e h1 h2 tr1
    simp [Controller.onDocumentSymbol, CheckDefault, h1, h2]
  · intro TU AST h1 h2
    simp only [Controller.onDocumentSymbol, CheckDefault, h1, h2]
    cases collect tr TU.variableLookup TU.src (some AST) [] <;> rfl

/-- C13 at a controller that holds `a.nix` only: a request for `b.nix` is
answered with DocumentNotFound, and a request for `a.nix` with the forest of
`x: x + 1`. -/
theorem onDocumentSymbol_reply_witness :
    Example.controller.onDocumentSymbol Example.columns "b.nix"
        = some (.error Failure.DocumentNotFound) ∧
      Example.controller.onDocumentSymbol Example.columns "a.nix"
        = (collect Example.columns Example.unresolved "x: x + 1"
            (some Example.lambdaXPlusOne) []).map Except.ok :=
  ⟨(onDocumentSymbol_reply Example.controller Example.columns "b.nix").1
      Failure.DocumentNotFound rfl Example.columns,
    (onDocumentSymbol_reply Example.controller Example.columns "a.nix").2.2
      { src := "x: x + 1", variableLookup := Example.unresolved } Example.lambdaXPlusOne rfl rfl⟩

/-! ## Entries of the single node kinds -/

/-- The detail `richVar` leaves: the two fixed texts for the literal names, and
otherwise the detail the entry came with. -/
theorem richVar_detail (Var : ExprVar) (Sym Sym1 : DocumentSymbol)
    (VLA : VariableLookupAnalysis) (h : richVar Var Sym VLA = some Sym1) :
    Sym1.detail = (if Var.id.name = "true" ∨ Var.id.name = "false" then "builtin boolean"
      else if Var.id.name = "null" then "null" else Sym.detail) := by
  unfold richVar at h
  dsimp only at h
  split_ifs at h with h1 h2
  · cases h; simp [h1]
  · cases h; simp [h1, h2]
  · simpa [h1, h2] using (markBuiltin_preserves _ _ _ h).2.1
  · simpa [h1, h2] using (markBuiltin_preserves _ _ _ h).2.1
  · cases h; simp [h1, h2]

/-- C14, as stated, fails. The entry of the variable `null` has the detail
"null", not "identifier". -/
theorem null_detail_not_identifier :
    ∃ e, collect Example.columns Example.unresolved "" (some (.ExprVar Example.varNull)) []
        = some [e] ∧
      e.name = "null" ∧ e.detail = "null" ∧ e.detail ≠ "identifier" :=
  ⟨_, rfl, rfl, rfl, by decide⟩

/-- C14, amended. For a variable whose lookup does not end the run (it is
named `true`, `false` or `null`, or it is answered Unresolved, or the answer
has a definition attached), `collect` appends exactly one entry: its name is
the identifier text, its detail is "builtin boolean" for `true` and `false`,
"null" for `null` and "identifier" for every other name, its range and its
selection range are the translated range of the node, and it has no children. -/
theorem variable_entry (tr : Translator) (VLA : VariableLookupAnalysis) (Src : String)
    (Var : ExprVar) (out : List DocumentSymbol) (hsafe : varSafe VLA Var = true) :
    ∃ e, collect tr VLA Src (some (.ExprVar Var)) out = some (out ++ [e]) ∧
      e.name = Var.id.name ∧
      e.detail = (if Var.id.name = "true" ∨ Var.id.name = "false" then "builtin boolean"
        else if Var.id.name = "null" then "null" else "identifier") ∧
      e.range = toLSPRange tr Src Var.range ∧
      e.selectionRange = toLSPRange tr Src Var.range ∧
      e.children = [] := by
  rw [← richVar_isSome Var
    { name := Var.id.name, detail := "identifier", kind := SymbolKind.Variable,
      deprecated := false, range := toLSPRange tr Src Var.range,
      selectionRange := toLSPRange tr Src Var.range, children := [] } VLA] at hsafe
  obtain ⟨Sym, hSym⟩ := Option.isSome_iff_exists.1 hsafe
  obtain ⟨h1, h2, h3, h4⟩ := richVar_preserves _ _ _ _ hSym
  refine ⟨Sym, ?_, h1, richVar_detail _ _ _ _ hSym, h2, h3, h4⟩
  rw [collect_var_eq, hSym]
  rfl

/-- The amended C14 at the variable `x` defined by a binding that is not
builtin: one entry named `x` with the detail "identifier". -/
theorem variable_entry_witness :
    ∃ e, collect Example.columns Example.definedPlain "" (some (.ExprVar Example.varX)) []
        = some ([] ++ [e]) ∧
      e.name = "x" ∧ e.detail = "identifier" ∧
      e.range = { start := ⟨0, 3⟩, stop := ⟨0, 4⟩ } ∧
      e.selectionRange = { start := ⟨0, 3⟩, stop := ⟨0, 4⟩ } ∧
      e.children = [] :=
  variable_entry Example.columns Example.definedPlain "" Example.varX [] rfl

/-- C15, as stated, fails. A list whose only element is the variable `x`, under
an oracle that answers Defined without a definition, and a list whose only
element is a lambda with a parameter that has neither an identifier nor
formals: `collect` returns no forest for the element and none for the list, so
no entry is emitted for the list. -/
theorem list_without_entry :
    collect Example.columns Example.definedNoDef "" (some (.ExprVar Example.varX)) [] = none ∧
      collect Example.columns Example.definedNoDef "" (some Example.listOfX) [] = none ∧
      (¬ ∃ e, collect Example.columns Example.definedNoDef "" (some Example.listOfX) []
        = some [e]) ∧
      (¬ ∃ e, collect Example.columns Example.unresolved "" (some Example.listOfBareArg) []
        = some [e]) :=
  ⟨rfl, rfl,
    fun ⟨_, h⟩ => Option.noConfusion (Eq.trans (Eq.symm h) rfl : some _ = none),
    fun ⟨_, h⟩ => Option.noConfusion (Eq.trans (Eq.symm h) rfl : some _ = none)⟩

/-- C15, amended. For a list node `collect` has a result exactly when it has
one for every element of the list on an empty output, and the result is then the
given output followed by exactly one entry, named by the fixed text, with
detail "list", kind Array, not deprecated, range and selection range the
translated range of the list, and as children the forests of the elements,
concatenated in element order. -/
theorem list_entry (tr : Translator) (VLA : VariableLookupAnalysis) (Src : String)
    (range : LexerCursorRange) (children : List (Option Node)) (out : List DocumentSymbol) :
    collect tr VLA Src (some (.ExprList range children)) out
      = (concatResults (children.map fun Ch => collect tr VLA Src Ch [])).map
          (fun Children => out ++ [{
            name := "\x7banonymous\x7d"
            detail := "list"
            kind := SymbolKind.Array
            deprecated := false
            range := toLSPRange tr Src range
            selectionRange := toLSPRange tr Src range
            children := Children }]) := by
  simp only [collect, collectNode]
  rw [collectChildren_eq_concat]
  cases concatResults (children.map fun Ch => collect tr VLA Src Ch []) <;> simp

/-- The amended C15 at `[ 1 "x" ]`: one Array entry whose children are the
entries of `1` and of `"x"`, in that order. -/
theorem list_entry_witness :
    collect Example.columns Example.unresolved "" (some Example.listOneX) []
      = some [{ name := "\x7banonymous\x7d", detail := "list", kind := SymbolKind.Array,
                deprecated := false,
                range := { start := ⟨0, 0⟩, stop := ⟨0, 9⟩ },
                selectionRange := { start := ⟨0, 0⟩, stop := ⟨0, 9⟩ },
                children :=
                  [{ name := "1", detail := "integer", kind := SymbolKind.Number,
                     deprecated := false,
                     range := { start := ⟨0, 2⟩, stop := ⟨0, 3⟩ },
                     selectionRange := { start := ⟨0, 2⟩, stop := ⟨0, 3⟩ }, children := [] },
                   { name := "x", detail := "string", kind := SymbolKind.String,
                     deprecated := false,
                     range := { start := ⟨0, 4⟩, stop := ⟨0, 7⟩ },
                     selectionRange := { start := ⟨0, 4⟩, stop := ⟨0, 7⟩ }, children := [] }] }] :=
  (list_entry Example.columns Example.unresolved "" (Example.span 0 9)
    [some (.ExprInt (Example.span 2 3) 1), some (.ExprString (Example.span 4 7) true "x")]
    []).trans rfl

/-- C16. For a string literal, an integer literal and an attribute name
`collect` returns the given output followed by exactly one entry without
children, not deprecated, whose range and selection range are the translated
range of the node: kind String, detail "string" and the literal text, or the
fixed text when the string is not a literal; kind Number, detail "integer" and
the decimal text of the value; kind Property, detail "attribute name" and the
static name, or the fixed text when the name is not static. -/
theorem literal_entries (tr : Translator) (VLA : VariableLookupAnalysis) (Src : String)
    (range : LexerCursorRange) (out : List DocumentSymbol) :
    (∀ (isLiteral : Bool) (literal : String),
      collect tr VLA Src (some (.ExprString range isLiteral literal)) out
        = some (out ++ [{
            name := if isLiteral = true then literal else "(dynamic string)"
            detail := "string", kind := SymbolKind.String, deprecated := false
            range := toLSPRange tr Src range, selectionRange := toLSPRange tr Src range
            children := [] }])) ∧
    (∀ value : Int,
      collect tr VLA Src (some (.ExprInt range value)) out
        = some (out ++ [{
            name := toString value
            detail := "integer", kind := SymbolKind.Number, deprecated := false
            range := toLSPRange tr Src range, selectionRange := toLSPRange tr Src range
            children := [] }])) ∧
    (∀ (isStatic : Bool) (staticName : String),
      collect tr VLA Src (some (.AttrName range isStatic staticName)) out
        = some (out ++ [{
            name := if isStatic = true then staticName else "(dynamic attribute name)"
            detail := "attribute name", kind := SymbolKind.Property, deprecated := false
            range := toLSPRange tr Src range, selectionRange := toLSPRange tr Src range
            children := [] }])) ∧
    toString (42 : Int) = "42" ∧ toString (-7 : Int) = "-7" :=
  ⟨fun _ _ => rfl, fun _ => rfl, fun _ _ => rfl, by decide, by decide⟩

/-! ## The output given to the traversal -/

/-- C17. `collect` only appends: its result on an output `out` is `out`
followed by its result on the empty output (and there is a result on `out`
exactly when there is one on the empty output), so the entries of `out` stay
in place, in order and unchanged; for a null node the output is returned as it
was given. -/
theorem collect_only_appends (tr : Translator) (VLA : VariableLookupAnalysis) (Src : String)
    (AST : Option Node) (out : List DocumentSymbol) :
    collect tr VLA Src AST out = (collect tr VLA Src AST []).map (out ++ ·) ∧
      collect tr VLA Src none out = some out :=
  ⟨collect_frame tr VLA Src AST out, rfl⟩

/-! ## Properties of every entry -/

theorem forall_entries_snoc (P : DocumentSymbol → Prop) (out : List DocumentSymbol)
    (e : DocumentSymbol) (hout : ∀ x ∈ allEntries out, P x) (he : P e)
    (hch : ∀ x ∈ allEntries e.children, P x) :
    ∀ x ∈ allEntries (out ++ [e]), P x := by
  intro x hx
  rw [allEntries_append, allEntries_singleton, List.mem_append, List.mem_cons] at hx
  rcases hx with hx | rfl | hx
  · exact hout x hx
  · exact he
  · exact hch x hx

section entries
variable (tr : Translator) (VLA : VariableLookupAnalysis) (Src : String)
variable (P : DocumentSymbol → Prop) (V : List ExprVar)

mutual
/-- A property holds of every entry of the result of `collect` when it holds
of the entries of the given output, of each entry without children that a
literal or an attribute name gets, of each entry `richVar` returns for a
variable of `V`, and of each entry of a lambda, a list or an attribute, and
when the variables reached in the tree are in `V`. -/
theorem collect_forall_entries
    (hleaf : ∀ name detail kind r, (detail, kind) ∈
        [("string", SymbolKind.String), ("integer", SymbolKind.Number),
         ("float", SymbolKind.Number), ("attribute name", SymbolKind.Property)] →
      P { name := name, detail := detail, kind := kind, deprecated := false, range := r,
          selectionRange := r, children := [] })
    (hvar : ∀ v ∈ V, ∀ Sym,
      richVar v { name := v.id.name, detail := "identifier", kind := SymbolKind.Variable,
                  deprecated := false, range := toLSPRange tr Src v.range,
                  selectionRange := toLSPRange tr Src v.range, children := [] } VLA = some Sym →
      P Sym)
    (hinner : ∀ name detail kind r sel ch, (detail, kind) ∈
        [("lambda", SymbolKind.Function), ("list", SymbolKind.Array),
         ("attribute", SymbolKind.Field)] →
      P { name := name, detail := detail, kind := kind, deprecated := false, range := r,
          selectionRange := sel, children := ch })
    (AST : Option Node) (out res : List DocumentSymbol)
    (hV : ∀ v ∈ reachedVars AST, v ∈ V) (h : collect tr VLA Src AST out = some res)
    (hout : ∀ x ∈ allEntries out, P x) : ∀ x ∈ allEntries res, P x := by
  cases AST with
  | none =>
    simp only [collect, Option.some.injEq] at h
    subst h
    exact hout
  | some n =>
    simp only [collect] at h
    simp only [reachedVars] at hV
    exact collectNode_forall_entries hleaf hvar hinner n out res hV h hout
theorem collectNode_forall_entries
    (hleaf : ∀ name detail kind r, (detail, kind) ∈
        [("string", SymbolKind.String), ("integer", SymbolKind.Number),
         ("float", SymbolKind.Number), ("attribute name", SymbolKind.Property)] →
      P { name := name, detail := detail, kind := kind, deprecated := false, range := r,
          selectionRange := r, children := [] })
    (hvar : ∀ v ∈ V, ∀ Sym,
      richVar v { name := v.id.name, detail := "identifier", kind := SymbolKind.Variable,
                  deprecated := false, range := toLSPRange tr Src v.range,
                  selectionRange := toLSPRange tr Src v.range, children := [] } VLA = some Sym →
      P Sym)
    (hinner : ∀ name detail kind r sel ch, (detail, kind) ∈
        [("lambda", SymbolKind.Function), ("list", SymbolKind.Array),
         ("attribute", SymbolKind.Field)] →
      P { name := name, detail := detail, kind := kind, deprecated := false, range := r,
          selectionRange := sel, children := ch })
    (AST : Node) (out res : List DocumentSymbol)
    (hV : ∀ v ∈ reachedVarsNode AST, v ∈ V) (h : collectNode tr VLA Src AST out = some res)
    (hout : ∀ x ∈ allEntries out, P x) : ∀ x ∈ allEntries res, P x := by
  cases AST with
  | ExprString r b l =>
    simp only [collectNode, Option.some.injEq] at h
    subst h
    exact forall_entries_snoc P out _ hout (hleaf _ _ _ _ (by simp)) (by simp [allEntries])
  | ExprInt r v =>
    simp only [collectNode, Option.some.injEq] at h
    subst h
    exact forall_entries_snoc P out _ hout (hleaf _ _ _ _ (by simp)) (by simp [allEntries])
  | ExprFloat r v =>
    simp only [collectNode, Option.some.injEq] at h
    subst h
    exact forall_entries_snoc P out _ hout (hleaf _ _ _ _ (by simp)) (by simp [allEntries])
  | AttrName r b n =>
    simp only [collectNode, Option.some.injEq] at h
    subst h
    exact forall_entries_snoc P out _ hout (hleaf _ _ _ _ (by simp)) (by simp [allEntries])
  | ExprVar v =>
    simp only [collectNode] at h
    split at h
    · simp at h
    · rename_i Sym hSym
      simp only [Option.some.injEq] at h
      subst h
      obtain ⟨-, -, -, h4⟩ := richVar_preserves _ _ _ _ hSym
      refine forall_entries_snoc P out _ hout (hvar v (hV v (by simp [reachedVarsNode])) _ hSym) ?_
      rw [h4]
      simp [allEntries]
  | ExprLambda r a b =>
    simp only [collectNode] at h
    simp only [reachedVarsNode] at hV
    split at h
    · simp at h
    · rename_i Children hb
      split at h
      · simp at h
      · simp only [Option.some.injEq] at h
        subst h
        refine forall_entries_snoc P out _ hout (hinner _ _ _ _ _ _ (by simp)) ?_
        exact collect_forall_entries hleaf hvar hinner b [] Children hV hb (by simp [allEntries])
  | ExprList r cs =>
    simp only [collectNode] at h
    simp only [reachedVarsNode] at hV
    split at h
    · simp at h
    · rename_i Children hcs
      simp only [Option.some.injEq] at h
      subst h
      refine forall_entries_snoc P out _ hout (hinner _ _ _ _ _ _ (by simp)) ?_
      exact collectChildren_forall_entries hleaf hvar hinner cs [] Children hV hcs
        (by simp [allEntries])
  | ExprAttrs r sa =>
    cases sa with
    | mk s d =>
      simp only [collectNode] at h
      simp only [reachedVarsNode, List.mem_append] at hV
      split at h
      · simp at h
      · rename_i Symbols1 hs
        exact collectDynamic_forall_entries hleaf hvar hinner d Symbols1 res
          (fun v hv => hV v (Or.inr hv)) h
          (collectStatic_forall_entries hleaf hvar hinner s out Symbols1
            (fun v hv => hV v (Or.inl hv)) hs hout)
  | Other r cs =>
    simp only [collectNode] at h
    simp only [reachedVarsNode] at hV
    exact collectChildren_forall_entries hleaf hvar hinner cs out res hV h hout
theorem collectChildren_forall_entries
    (hleaf : ∀ name detail kind r, (detail, kind) ∈
        [("string", SymbolKind.String), ("integer", SymbolKind.Number),
         ("float", SymbolKind.Number), ("attribute name", SymbolKind.Property)] →
      P { name := name, detail := detail, kind := kind, deprecated := false, range := r,
          selectionRange := r, children := [] })
    (hvar : ∀ v ∈ V, ∀ Sym,
      richVar v { name := v.id.name, detail := "identifier", kind := SymbolKind.Variable,
                  deprecated := false, range := toLSPRange tr Src v.range,
                  selectionRange := toLSPRange tr Src v.range, children := [] } VLA = some Sym →
      P Sym)
    (hinner : ∀ name detail kind r sel ch, (detail, kind) ∈
        [("lambda", SymbolKind.Function), ("list", SymbolKind.Array),
         ("attribute", SymbolKind.Field)] →
      P { name := name, detail := detail, kind := kind, deprecated := false, range := r,
          selectionRange := sel, children := ch })
    (cs : List (Option Node)) (out res : List DocumentSymbol)
    (hV : ∀ v ∈ reachedVarsChildren cs, v ∈ V)
    (h : collectChildren tr VLA Src cs out = some res)
    (hout : ∀ x ∈ allEntries out, P x) : ∀ x ∈ allEntries res, P x := by
  cases cs with
  | nil =>
    simp only [collectChildren, Option.some.injEq] at h
    subst h
    exact hout
  | cons c rest =>
    simp only [collectChildren] at h
    simp only [reachedVarsChildren, List.mem_append] at hV
    split at h
    · simp at h
    · rename_i Symbols1 hc
      exact collectChildren_forall_entries hleaf hvar hinner rest Symbols1 res
        (fun v hv => hV v (Or.inr hv)) h
        (collect_forall_entries hleaf hvar hinner c out Symbols1
          (fun v hv => hV v (Or.inl hv)) hc hout)
theorem collectStatic_forall_entries
    (hleaf : ∀ name detail kind r, (detail, kind) ∈
        [("string", SymbolKind.String), ("integer", SymbolKind.Number),
         ("float", SymbolKind.Number), ("attribute name", SymbolKind.Property)] →
      P { name := name, detail := detail, kind := kind, deprecated := false, range := r,
          selectionRange := r, children := [] })
    (hvar : ∀ v ∈ V, ∀ Sym,
      richVar v { name := v.id.name, detail := "identifier", kind := SymbolKind.Variable,
                  deprecated := false, range := toLSPRange tr Src v.range,
                  selectionRange := toLSPRange tr Src v.range, children := [] } VLA = some Sym →
      P Sym)
    (hinner : ∀ name detail kind r sel ch, (detail, kind) ∈
        [("lambda", SymbolKind.Function), ("list", SymbolKind.Array),
         ("attribute", SymbolKind.Field)] →
      P { name := name, detail := detail, kind := kind, deprecated := false, range := r,
          selectionRange := sel, children := ch })
    (s : List (String × Attribute)) (out res : List DocumentSymbol)
    (hV : ∀ v ∈ reachedVarsStatic s, v ∈ V)
    (h : collectStatic tr VLA Src s out = some res)
    (hout : ∀ x ∈ allEntries out, P x) : ∀ x ∈ allEntries res, P x := by
  match s with
  | [] =>
    simp only [collectStatic, Option.some.injEq] at h
    subst h
    exact hout
  | (_, .mk _ none) :: rest =>
    simp only [collectStatic] at h
    simp only [reachedVarsStatic] at hV
    exact collectStatic_forall_entries hleaf hvar hinner rest out res hV h hout
  | (Name, .mk key (some v)) :: rest =>
    simp only [collectStatic] at h
    simp only [reachedVarsStatic, List.mem_append] at hV
    split at h
    · simp at h
    · rename_i Children hc
      refine collectStatic_forall_entries hleaf hvar hinner rest _ res
        (fun x hx => hV x (Or.inr hx)) h ?_
      refine forall_entries_snoc P out _ hout (hinner _ _ _ _ _ _ (by simp)) ?_
      exact collect_forall_entries hleaf hvar hinner (some v) [] Children
        (fun x hx => hV x (Or.inl hx)) hc (by simp [allEntries])
theorem collectDynamic_forall_entries
    (hleaf : ∀ name detail kind r, (detail, kind) ∈
        [("string", SymbolKind.String), ("integer", SymbolKind.Number),
         ("float", SymbolKind.Number), ("attribute name", SymbolKind.Property)] →
      P { name := name, detail := detail, kind := kind, deprecated := false, range := r,
          selectionRange := r, children := [] })
    (hvar : ∀ v ∈ V, ∀ Sym,
      richVar v { name := v.id.name, detail := "identifier", kind := SymbolKind.Variable,
                  deprecated := false, range := toLSPRange tr Src v.range,
                  selectionRange := toLSPRange tr Src v.range, children := [] } VLA = some Sym →
      P Sym)
    (hinner : ∀ name detail kind r sel ch, (detail, kind) ∈
        [("lambda", SymbolKind.Function), ("list", SymbolKind.Array),
         ("attribute", SymbolKind.Field)] →
      P { name := name, detail := detail, kind := kind, deprecated := false, range := r,
          selectionRange := sel, children := ch })
    (d : List Attribute) (out res : List DocumentSymbol)
    (hV : ∀ v ∈ reachedVarsDynamic d, v ∈ V)
    (h : collectDynamic tr VLA Src d out = some res)
    (hout : ∀ x ∈ allEntries out, P x) : ∀ x ∈ allEntries res, P x := by
  match d with
  | [] =>
    simp only [collectDynamic, Option.some.injEq] at h
    subst h
    exact hout
  | (.mk key value) :: rest =>
    simp only [collectDynamic] at h
    simp only [reachedVarsDynamic, List.mem_append] at hV
    split at h
    · simp at h
    · rename_i Children hc
      refine collectDynamic_forall_entries hleaf hvar hinner rest _ res
        (fun x hx => hV x (Or.inr hx)) h ?_
      refine forall_entries_snoc P out _ hout (hinner _ _ _ _ _ _ (by simp)) ?_
      exact collect_forall_entries hleaf hvar hinner value [] Children
        (fun x hx => hV x (Or.inl hx)) hc (by simp [allEntries])
end
end entries

theorem markBuiltin_kind (Result : LookupResult) (Sym Sym1 : DocumentSymbol)
    (h : richVar.markBuiltin Result Sym = some Sym1) :
    Sym1.kind = SymbolKind.Event ∨ Sym1.kind = Sym.kind := by
  unfold richVar.markBuiltin at h
  split at h
  · simp at h
  · split_ifs at h <;> cases h <;> simp

/-- The kinds `richVar` can leave on an entry that came with the kind Variable. -/
theorem richVar_kind (Var : ExprVar) (Sym Sym1 : DocumentSymbol) (VLA : VariableLookupAnalysis)
    (hk : Sym.kind = SymbolKind.Variable) (h : richVar Var Sym VLA = some Sym1) :
    Sym1.kind ∈ [SymbolKind.Boolean, SymbolKind.Null, SymbolKind.Variable, SymbolKind.Constant,
      SymbolKind.Event] := by
  unfold richVar at h
  dsimp only at h
  split_ifs at h
  · cases h; simp
  · cases h; simp
  · rcases markBuiltin_kind _ _ _ h with h1 | h1 <;> simp [h1]
  · rcases markBuiltin_kind _ _ _ h with h1 | h1 <;> simp [h1]
  · cases h; simp [hk]

/-- An entry that `richVar` marks deprecated comes from the branch of the
Unresolved answer, which leaves kind and detail as they were. -/
theorem richVar_deprecated (Var : ExprVar) (Sym Sym1 : DocumentSymbol)
    (VLA : VariableLookupAnalysis) (hd : Sym.deprecated = false)
    (h : richVar Var Sym VLA = some Sym1) (h1 : Sym1.deprecated = true) :
    Sym1.kind = Sym.kind ∧ Sym1.detail = Sym.detail ∧
      (VLA.query Var).Kind = LookupResultKind.Unresolved := by
  unfold richVar at h
  dsimp only at h
  split_ifs at h with _ _ hD hF
  · cases h; simp [hd] at h1
  · cases h; simp [hd] at h1
  · rw [(markBuiltin_preserves _ _ _ h).2.2.1] at h1; simp [hd] at h1
  · rw [(markBuiltin_preserves _ _ _ h).2.2.1] at h1; simp [hd] at h1
  · cases h
    refine ⟨rfl, rfl, ?_⟩
    cases hq : (VLA.query Var).Kind <;> simp_all

/-- C18. In the forest `collect` returns for a tree on an empty output, an
entry marked deprecated has kind Variable, detail "identifier" and no children,
and it carries the name and the translated range of a variable reference that
`collect` reaches in the tree and for which the oracle answers Unresolved;
every entry of kind String, Number, Boolean, Null, Constant, Event, Function,
Array, Property or Field is not marked deprecated. -/
theorem deprecated_only_unresolved (tr : Translator) (VLA : VariableLookupAnalysis)
    (Src : String) (AST : Option Node) (forest : List DocumentSymbol)
    (h : collect tr VLA Src AST [] = some forest)
    (e : DocumentSymbol) (he : e ∈ allEntries forest) :
    (e.deprecated = true →
      e.kind = SymbolKind.Variable ∧ e.detail = "identifier" ∧ e.children = [] ∧
      ∃ v ∈ reachedVars AST, (VLA.query v).Kind = LookupResultKind.Unresolved ∧
        e.name = v.id.name ∧ e.range = toLSPRange tr Src v.range) ∧
    (e.kind ∈ [SymbolKind.String, SymbolKind.Number, SymbolKind.Boolean, SymbolKind.Null,
        SymbolKind.Constant, SymbolKind.Event, SymbolKind.Function, SymbolKind.Array,
        SymbolKind.Property, SymbolKind.Field] →
      e.deprecated = false) := by
  have key : e.deprecated = true →
      e.kind = SymbolKind.Variable ∧ e.detail = "identifier" ∧ e.children = [] ∧
      ∃ v ∈ reachedVars AST, (VLA.query v).Kind = LookupResultKind.Unresolved ∧
        e.name = v.id.name ∧ e.range = toLSPRange tr Src v.range := by
    refine collect_forall_entries tr VLA Src
      (fun e => e.deprecated = true →
        e.kind = SymbolKind.Variable ∧ e.detail = "identifier" ∧ e.children = [] ∧
        ∃ v ∈ reachedVars AST, (VLA.query v).Kind = LookupResultKind.Unresolved ∧
          e.name = v.id.name ∧ e.range = toLSPRange tr Src v.range)
      (reachedVars AST) ?_ ?_ ?_ AST [] forest (fun _ hv => hv) h (by simp [allEntries]) e he
    · intro name detail kind r _ hdep
      simp at hdep
    · intro v hv Sym hSym hdep
      obtain ⟨h1, h2, -, h4⟩ := richVar_preserves _ _ _ _ hSym
      obtain ⟨h5, h6, h7⟩ := richVar_deprecated _ _ _ _ rfl hSym hdep
      exact ⟨h5, h6, h4, v, hv, h7, h1, h2⟩
    · intro name detail kind r sel ch _ hdep
      simp at hdep
  refine ⟨key, ?_⟩
  intro hk
  cases hdep : e.deprecated with
  | false => rfl
  | true =>
    rw [(key hdep).1] at hk
    simp at hk

/-- C19. In the forest `collect` returns for a tree on an empty output, the
kind of every entry is one of String, Number, Boolean, Null, Variable,
Constant, Event, Property, Function, Array and Field, and an entry whose kind
is one of the first eight has no children. -/
theorem children_only_under_containers (tr : Translator) (VLA : VariableLookupAnalysis)
    (Src : String) (AST : Option Node) (forest : List DocumentSymbol)
    (h : collect tr VLA Src AST [] = some forest)
    (e : DocumentSymbol) (he : e ∈ allEntries forest) :
    e.kind ∈ [SymbolKind.String, SymbolKind.Number, SymbolKind.Boolean, SymbolKind.Null,
        SymbolKind.Variable, SymbolKind.Constant, SymbolKind.Event, SymbolKind.Property,
        SymbolKind.Function, SymbolKind.Array, SymbolKind.Field] ∧
    (e.kind ∈ [SymbolKind.String, SymbolKind.Number, SymbolKind.Boolean, SymbolKind.Null,
        SymbolKind.Variable, SymbolKind.Constant, SymbolKind.Event, SymbolKind.Property] →
      e.children = []) := by
  refine collect_forall_entries tr VLA Src
    (fun e =>
      e.kind ∈ [SymbolKind.String, SymbolKind.Number, SymbolKind.Boolean, SymbolKind.Null,
          SymbolKind.Variable, SymbolKind.Constant, SymbolKind.Event, SymbolKind.Property,
          SymbolKind.Function, SymbolKind.Array, SymbolKind.Field] ∧
      (e.kind ∈ [SymbolKind.String, SymbolKind.Number, SymbolKind.Boolean, SymbolKind.Null,
          SymbolKind.Variable, SymbolKind.Constant, SymbolKind.Event, SymbolKind.Property] →
        e.children = []))
    (reachedVars AST) ?_ ?_ ?_ AST [] forest (fun _ hv => hv) h (by simp [allEntries]) e he
  · intro name detail kind r hmem
    simp only [List.mem_cons, Prod.mk.injEq, List.mem_singleton, List.not_mem_nil,
      or_false] at hmem
    rcases hmem with ⟨-, rfl⟩ | ⟨-, rfl⟩ | ⟨-, rfl⟩ | ⟨-, rfl⟩ <;> simp
  · intro v _ Sym hSym
    obtain ⟨-, -, -, h4⟩ := richVar_preserves _ _ _ _ hSym
    have hk := richVar_kind _ _ _ _ rfl hSym
    refine ⟨?_, fun _ => h4⟩
    simp only [List.mem_cons, List.mem_singleton, List.not_mem_nil, or_false] at hk ⊢
    rcases hk with hk | hk | hk | hk | hk <;> simp [hk]
  · intro name detail kind r sel ch hmem
    simp only [List.mem_cons, Prod.mk.injEq, List.mem_singleton, List.not_mem_nil,
      or_false] at hmem
    rcases hmem with ⟨-, rfl⟩ | ⟨-, rfl⟩ | ⟨-, rfl⟩ <;> simp

/-- The entry of `x` is among the entries of the forest of `x: x + 1`, one
level down. -/
theorem varXEntry_mem :
    Example.varXEntry ∈ allEntries [Example.lambdaXPlusOneEntry] := by
  rw [allEntries_singleton]
  refine List.mem_cons_of_mem _ ?_
  show Example.varXEntry ∈ allEntries (Example.varXEntry :: _)
  rw [allEntries_cons]
  exact List.mem_cons_self _ _

/-- C18 at `x: x + 1` with nothing resolved: the nested entry of `x` is marked
deprecated, and it is a Variable entry with detail "identifier", without
children, for a reached variable that the oracle answers Unresolved. -/
theorem deprecated_only_unresolved_witness :
    Example.varXEntry.deprecated = true ∧
      (Example.varXEntry.kind = SymbolKind.Variable ∧
        Example.varXEntry.detail = "identifier" ∧ Example.varXEntry.children = [] ∧
        ∃ v ∈ reachedVars (some Example.lambdaXPlusOne),
          (Example.unresolved.query v).Kind = LookupResultKind.Unresolved ∧
          Example.varXEntry.name = v.id.name ∧
          Example.varXEntry.range = toLSPRange Example.columns "" v.range) :=
  ⟨rfl, (deprecated_only_unresolved Example.columns Example.unresolved ""
    (some Example.lambdaXPlusOne) [Example.lambdaXPlusOneEntry] rfl Example.varXEntry
    varXEntry_mem).1 rfl⟩

/-- C19 at `x: x + 1` with nothing resolved: the nested entry of `x` has the
kind Variable, one of the eleven, and no children. -/
theorem children_only_under_containers_witness :
    Example.varXEntry.kind = SymbolKind.Variable ∧ Example.varXEntry.children = [] :=
  ⟨rfl, (children_only_under_containers Example.columns Example.unresolved ""
    (some Example.lambdaXPlusOne) [Example.lambdaXPlusOneEntry] rfl Example.varXEntry
    varXEntry_mem).2 (by decide)⟩

end nixd
